import Mathlib

/-
Shallow embedding of the polynomial regression tree implementation
(`equadratures/polytree.py`) and proofs about it.

Modelling conventions:
* numpy float arrays are modelled with `ℚ` (exact rational arithmetic);
  rows of the design matrix `X` are `List ℚ`, the response `y` is `List ℚ`.
* The external polynomial surrogate (`Poly`) is an opaque collaborator:
  the development is parameterised over a type `P` of fitted polynomials,
  a fitting function `fitPoly : List Row → List ℚ → ℚ × P` (returning the
  training mean-squared error and the fitted object, as `_fit_poly` does),
  an evaluator `evalPoly : P → Row → ℚ` (`Poly.get_polyfit`, row-wise) and
  `basisGrad : P → List Row → List (List ℚ)` (`model.get_poly(X).T`).
* `np.sqrt` (used by `np.std` and by the gradient renormalisation) is kept
  abstract as a parameter `sqrtQ : ℚ → ℚ`: the structural facts proved here
  hold for every choice of that function.
* Node dictionaries become the record `NodeInfo`; the tree is the inductive
  `PTree` whose `node` constructor always has both children, mirroring the
  invariant that `children.left`/`children.right` are both present or both
  absent.  The fields `name` and `flag` of the source dictionaries are
  purely cosmetic (graphviz) and are omitted.
-/

namespace PolyTreeSpec

/-- Rows of the input matrix `X` are lists of rationals. -/
abbrev Row : Type := List ℚ

/-- Entry `row[j]`; all source accesses use in-range indices. -/
def colVal (j : ℕ) (row : Row) : ℚ := row.getD j 0

/-- Column `X[:, j]`. -/
def column (j : ℕ) (X : List Row) : List ℚ := X.map (colVal j)

/-- Embedding of `_split_data`: rows with `X[:, j] <= threshold` go left (in
order), the remaining rows go right (in order), paired with their responses. -/
def splitData (j : ℕ) (thr : ℚ) (X : List Row) (ys : List ℚ) :
    (List Row × List ℚ) × (List Row × List ℚ) :=
  let pr := X.zip ys
  let lf := pr.filter (fun q => decide (colVal j q.1 ≤ thr))
  let rt := pr.filter (fun q => decide (¬ colVal j q.1 ≤ thr))
  ((lf.map Prod.fst, lf.map Prod.snd), (rt.map Prod.fst, rt.map Prod.snd))

/-- Node record of the tree (the dictionary built by `_create_node`).
`testLoss` and `lowerLoss` are absent (`none`) until `prune` attaches them. -/
structure NodeInfo (P : Type) where
  index : ℕ := 0
  loss : ℚ := 0
  poly : P
  nSamples : ℕ := 0
  jFeature : Option ℕ := none
  threshold : Option ℚ := none
  depth : ℕ := 0
  data : Option (List Row × List ℚ) := none
  testLoss : Option ℚ := none
  lowerLoss : Option ℚ := none
deriving DecidableEq

/-- Binary tree of node records; a `node` always has exactly two children,
matching the source invariant that both children are set together. -/
inductive PTree (P : Type) where
  | leaf (info : NodeInfo P)
  | node (info : NodeInfo P) (l r : PTree P)
deriving DecidableEq

/-- Record stored at the root of a (sub)tree. -/
def rootInfo {P : Type} : PTree P → NodeInfo P
  | PTree.leaf i => i
  | PTree.node i _ _ => i

/-- True on trees whose root has children. -/
def hasChildren {P : Type} : PTree P → Bool
  | PTree.leaf _ => false
  | PTree.node _ _ _ => true

/-- Left child of the root, when present. -/
def leftChild {P : Type} : PTree P → Option (PTree P)
  | PTree.leaf _ => none
  | PTree.node _ l _ => some l

/-- Right child of the root, when present. -/
def rightChild {P : Type} : PTree P → Option (PTree P)
  | PTree.leaf _ => none
  | PTree.node _ _ r => some r

/-! ### Predictor / smoother (`predict`) -/

/-- Values recorded for one query row by `_predict` while routing the row down
the tree: at every visited node, the node polynomial evaluation and the node
`n_samples`, indexed by depth (root first). -/
def pathOf {P : Type} (ev : P → Row → ℚ) : PTree P → Row → List (ℚ × ℕ)
  | PTree.leaf i, _x => [(ev i.poly _x, i.nSamples)]
  | PTree.node i l r, x =>
      (ev i.poly x, i.nSamples) ::
        (if colVal (i.jFeature.getD 0) x ≤ i.threshold.getD 0
         then pathOf ev l x else pathOf ev r x)

/-- The running blend of `predict`: entries are consumed deepest-first and the
loop stops as soon as an entry with a zero sample count is met
(`if n_i == 0: break`). -/
def blendLoop (k : ℚ) : ℚ → List (ℚ × ℕ) → ℚ
  | s, [] => s
  | s, e :: rest =>
      if e.2 = 0 then s
      else blendLoop k ((s * e.2 + e.1 * k) / (k + e.2)) rest

/-- Embedding of `predict` for a single query row.  The smoothing starts from
the deepest recorded prediction and the `while i > 0` loop blends the levels
`L, L-1, ..., 1` (the level-`0` root entry is never consumed because the loop
exits when `i` reaches `0`). -/
def predictRow {P : Type} (ev : P → Row → ℚ) (k : ℚ) (t : PTree P) (x : Row) : ℚ :=
  let pa := pathOf ev t x
  blendLoop k (pa.getLastD (0, 0)).1 pa.tail.reverse

/-- Modelled from the spec claim wording: the same blend, but run over every
recorded level down to and including the root (depth 0).  Used only to
compare the claimed behaviour with `predictRow`. -/
def claimSmoothRow {P : Type} (ev : P → Row → ℚ) (k : ℚ) (t : PTree P) (x : Row) : ℚ :=
  let pa := pathOf ev t x
  blendLoop k (pa.getLastD (0, 0)).1 pa.reverse

/-! ### Pruner (`prune`) -/

/-- Mean-squared error of one polynomial on a held-out subset:
`||y - poly(X)||^2 / N`. -/
def mseOf {P : Type} (ev : P → Row → ℚ) (p : P) (X : List Row) (ys : List ℚ) : ℚ :=
  (((X.zip ys).map (fun q => (q.2 - ev p q.1) ^ 2)).sum) / X.length

/-- Update applied by `pruner` to a node receiving zero held-out rows:
`test_loss = 0`, `n_samples = 0`, everything else untouched. -/
def setEmptyInfo {P : Type} (i : NodeInfo P) : NodeInfo P :=
  { i with testLoss := some 0, nSamples := 0 }

/-- Root-only variant of `setEmptyInfo` on trees (children untouched). -/
def zeroRoot {P : Type} : PTree P → PTree P
  | PTree.leaf i => PTree.leaf (setEmptyInfo i)
  | PTree.node i l r => PTree.node (setEmptyInfo i) l r

/-- Weighted average of the children's test losses
(`lower_loss` in `pruner`), weights being the children's `n_samples`. -/
def lowerLossOf {P : Type} (lt rt : PTree P) : ℚ :=
  ((rootInfo lt).testLoss.getD 0 * (rootInfo lt).nSamples
    + (rootInfo rt).testLoss.getD 0 * (rootInfo rt).nSamples)
  / (((rootInfo lt).nSamples : ℚ) + (rootInfo rt).nSamples)

/-- Embedding of the inner recursive `pruner(node, X_subset, y_subset)`.
`tol` here is already divided by 100 (the division happens once in `prune`). -/
def prunerF {P : Type} (ev : P → Row → ℚ) (tol : ℚ) :
    PTree P → List Row → List ℚ → PTree P
  | PTree.leaf i, X, ys =>
      if X.length < 1 then PTree.leaf (setEmptyInfo i)
      else PTree.leaf { i with testLoss := some (mseOf ev i.poly X ys) }
  | PTree.node i l r, X, ys =>
      if X.length < 1 then PTree.node (setEmptyInfo i) l r
      else
        let tl := mseOf ev i.poly X ys
        let sp := splitData (i.jFeature.getD 0) (i.threshold.getD 0) X ys
        let l2 := prunerF ev tol l sp.1.1 sp.1.2
        let r2 := prunerF ev tol r sp.2.1 sp.2.2
        let lower := lowerLossOf l2 r2
        if lower + tol * tl > tl then
          PTree.leaf { i with testLoss := some tl, lowerLoss := some lower }
        else
          PTree.node { i with testLoss := some tl, lowerLoss := some lower } l2 r2

/-- Embedding of the public `prune(X, y, tol)`.  The top level unconditionally
partitions the held-out data with the root's `j_feature`/`threshold` and runs
`pruner` on the two children only; on a leaf root those split fields are
`None` and the comparison `X[:, None] <= None` raises, which is modelled as
`Except.error`.  The root node itself is never passed to `pruner`. -/
def pruneTree {P : Type} (ev : P → Row → ℚ) (tolPercent : ℚ)
    (t : PTree P) (X : List Row) (ys : List ℚ) : Except String (PTree P) :=
  let tol := tolPercent / 100
  match t with
  | PTree.leaf _ => Except.error "TypeError: root split fields are None"
  | PTree.node i l r =>
      match i.jFeature, i.threshold with
      | some j, some thr =>
          let sp := splitData j thr X ys
          Except.ok (PTree.node i
            (prunerF ev tol l sp.1.1 sp.1.2)
            (prunerF ev tol r sp.2.1 sp.2.2))
      | _, _ => Except.error "TypeError: root split fields are None"

/-! ### Split search (`fit/_splitter`) -/

/-- The three splitting criteria. -/
inductive Crit where
  | modelAware
  | modelAgnostic
  | lossGradient
deriving DecidableEq

/-- The two threshold-search strategies. -/
inductive SearchMode where
  | exhaustive
  | grid
deriving DecidableEq

/-- Tree configuration at fit time.  `msl` is `min_samples_leaf` already
resolved to a number, `samples` the grid sample count, `splitDims` the
optional restriction of split dimensions.  The last four fields are the
collaborator contract of the opaque polynomial library (see module header). -/
structure Cfg (P : Type) where
  crit : Crit
  searchMode : SearchMode
  maxDepth : ℕ
  msl : ℕ
  samples : ℕ
  splitDims : Option (List ℕ) := none
  allData : Bool := false
  fitPoly : List Row → List ℚ → ℚ × P
  evalPoly : P → Row → ℚ
  basisGrad : P → List Row → List (List ℚ)
  sqrtQ : ℚ → ℚ

/-- Number of columns, `d` in `N, d = X.shape`. -/
def numFeat (X : List Row) : ℕ := (X.headD []).length

/-- Embedding of `np.linspace a b m` (for `m = 1` numpy returns `[a]`; here
the division by `m - 1 = 0` yields `0` in `ℚ`, giving the same list). -/
def linspaceQ (a b : ℚ) (m : ℕ) : List ℚ :=
  (List.range m).map (fun i => a + i * (b - a) / ((m : ℚ) - 1))

/-- Minimum of a nonempty list (`np.min`). -/
def listMin (l : List ℚ) : ℚ := l.foldl min (l.headD 0)

/-- Maximum of a nonempty list (`np.max`). -/
def listMax (l : List ℚ) : ℚ := l.foldl max (l.headD 0)

/-- Embedding of `np.unique(np.sort ts)`: ascending distinct values. -/
def sortedUnique (l : List ℚ) : List ℚ := (List.insertionSort (· ≤ ·) l).dedup

/-- Candidate thresholds for feature `j`: the unique sorted column values
(`exhaustive`) or `min samples N` evenly spaced points over the column span
(`grid`), deduplicated and sorted as in the source. -/
def thresholdsFor {P : Type} (cfg : Cfg P) (X : List Row) (j : ℕ) : List ℚ :=
  match cfg.searchMode with
  | SearchMode.exhaustive => sortedUnique (column j X)
  | SearchMode.grid =>
      sortedUnique (linspaceQ (listMin (column j X)) (listMax (column j X))
        (min cfg.samples X.length))

/-- Mean of a list (`np.mean`). -/
def meanQ (l : List ℚ) : ℚ := l.sum / l.length

/-- Population standard deviation `np.std`, with the square root abstracted. -/
def stdQ (sq : ℚ → ℚ) (l : List ℚ) : ℚ :=
  sq ((l.map (fun v => (v - meanQ l) ^ 2)).sum / l.length)

/-- Both children of the candidate split have at least `msl` training rows
(the `N_left >= min_samples_leaf and N_right >= min_samples_leaf` gate). -/
def sizesOk (msl : ℕ) (j : ℕ) (thr : ℚ) (X : List Row) (ys : List ℚ) : Bool :=
  let sp := splitData j thr X ys
  decide (msl ≤ sp.1.1.length) && decide (msl ≤ sp.2.1.length)

/-- Size-weighted average child loss of a candidate split under `model_aware`:
`(N_left*loss_left + N_right*loss_right) / N`. -/
def awLoss {P : Type} (cfg : Cfg P) (X : List Row) (ys : List ℚ) (j : ℕ) (thr : ℚ) : ℚ :=
  let sp := splitData j thr X ys
  ((sp.1.1.length : ℚ) * (cfg.fitPoly sp.1.1 sp.1.2).1
    + (sp.2.1.length : ℚ) * (cfg.fitPoly sp.2.1 sp.2.2).1) / X.length

/-- Candidate score under `model_agnostic`:
`std(y) - (N_left*std(y_left) + N_right*std(y_right)) / N`. -/
def agLoss {P : Type} (cfg : Cfg P) (X : List Row) (ys : List ℚ) (j : ℕ) (thr : ℚ) : ℚ :=
  let sp := splitData j thr X ys
  stdQ cfg.sqrtQ ys -
    ((sp.1.1.length : ℚ) * stdQ cfg.sqrtQ sp.1.2
      + (sp.2.1.length : ℚ) * stdQ cfg.sqrtQ sp.2.2) / X.length

/-- Running state of the threshold search (`did_split`, `loss_best`,
`data_best`, `polys_best`, `j_feature_best`, `threshold_best`), plus the
number of `_fit_poly` calls made so far (`polys_fit` in the source). -/
structure SState (P : Type) where
  didSplit : Bool := false
  lossBest : Option ℚ := none
  dataBest : Option ((List Row × List ℚ) × (List Row × List ℚ)) := none
  polysBest : Option (P × P) := none
  jBest : Option ℕ := none
  thrBest : Option ℚ := none
  fits : ℕ := 0

/-- Comparison `loss_split < loss_best`, where `none` stands for `np.inf`. -/
def ltBest (v : ℚ) : Option ℚ → Bool
  | none => true
  | some w => decide (v < w)

/-- Initial search state: the best loss starts at the parent's own loss for
`model_aware` and at `+inf` (`none`) for the other criteria. -/
def initState {P : Type} (cfg : Cfg P) (parentLoss : ℚ) : SState P :=
  { lossBest := match cfg.crit with | Crit.modelAware => some parentLoss | _ => none }

/-- Processing of one candidate `(j_feature, threshold)` in the search loop.
Under `model_aware`, two child polynomials are fitted for every candidate
that passes the size gate (hence `fits + 2` on both branches); under
`model_agnostic` no polynomial is fitted.  A candidate replaces the running
best only under the strict comparison `loss_split < loss_best`. -/
def evalCand {P : Type} (cfg : Cfg P) (X : List Row) (ys : List ℚ)
    (j : ℕ) (thr : ℚ) (st : SState P) : SState P :=
  if sizesOk cfg.msl j thr X ys then
    match cfg.crit with
    | Crit.modelAware =>
        let sp := splitData j thr X ys
        let fl := cfg.fitPoly sp.1.1 sp.1.2
        let fr := cfg.fitPoly sp.2.1 sp.2.2
        let ls := awLoss cfg X ys j thr
        if ltBest ls st.lossBest then
          { didSplit := true, lossBest := some ls, dataBest := some sp,
            polysBest := some (fl.2, fr.2), jBest := some j, thrBest := some thr,
            fits := st.fits + 2 }
        else { st with fits := st.fits + 2 }
    | Crit.modelAgnostic =>
        let ls := agLoss cfg X ys j thr
        if ltBest ls st.lossBest then
          { st with
            didSplit := true
            lossBest := some ls
            dataBest := some (splitData j thr X ys)
            jBest := some j
            thrBest := some thr }
        else st
    | Crit.lossGradient => st
  else st

/-- The double loop `for j_feature in range(d): for threshold in ...`. -/
def searchFold {P : Type} (cfg : Cfg P) (X : List Row) (ys : List ℚ)
    (parentLoss : ℚ) : SState P :=
  (List.range (numFeat X)).foldl
    (fun st j => (thresholdsFor cfg X j).foldl (fun st2 t => evalCand cfg X ys j t st2) st)
    (initState cfg parentLoss)

/-! ### Gradient split selector (`_find_split_from_grad`) -/

/-- Componentwise sum of two vectors. -/
def vadd (a b : List ℚ) : List ℚ := List.zipWith (· + ·) a b

/-- Componentwise difference of two vectors. -/
def vsub (a b : List ℚ) : List ℚ := List.zipWith (· - ·) a b

/-- Sum of a list of vectors (`array.sum(axis=0)`), `[]` when empty. -/
def sumRows : List (List ℚ) → List ℚ
  | [] => []
  | [v] => v
  | v :: rest => vadd v (sumRows rest)

/-- Columnwise mean of a matrix given as list of rows (`np.mean(X, axis=0)`). -/
def colMeans (rows : List (List ℚ)) : List ℚ :=
  (sumRows rows).map (fun a => a / rows.length)

/-- Per-sample residual-weighted gradient rows `g = r * P`. -/
def gradRows (Pm : List (List ℚ)) (r : List ℚ) : List (List ℚ) :=
  (r.zip Pm).map (fun q => q.2.map (fun a => q.1 * a))

/-- Stable argsort of a rational list (`np.argsort(X[:, d])`; at the boundary
indices used below, every quantity computed from the sorted order is
independent of the ordering chosen inside runs of equal values, so a stable
sort is an exact determinisation of numpy's unstable one). -/
def argsortQ (xs : List ℚ) : List ℕ :=
  List.insertionSort (fun i j => xs.getD i 0 ≤ xs.getD j 0) (List.range xs.length)

/-- The sorted column `Xd`. -/
def sortedColumn (xs : List ℚ) : List ℚ := (argsortQ xs).map (fun i => xs.getD i 0)

/-- Rows of a matrix reordered by a permutation (`g[sort, :]`). -/
def permRows (perm : List ℕ) (rows : List (List ℚ)) : List (List ℚ) :=
  perm.map (fun i => rows.getD i [])

/-- Candidate boundaries `np.unique(Xd, return_index=True)[1][1:]` of a sorted
column: on a sorted array the first-occurrence indices of the unique values
are exactly the positions where the value changes, plus position `0`, which
`[1:]` drops. -/
def boundarySplits (Xd : List ℚ) : List ℕ :=
  (List.range Xd.length).filter
    (fun i => decide (0 < i) && decide (Xd.getD i 0 ≠ Xd.getD (i - 1) 0))

/-- Boundaries surviving the `np.minimum(N_l, N_r) >= min_samples_leaf`
filter, where `N_l = s` and `N_r = N - s`. -/
def validSplits (msl : ℕ) (Xd : List ℚ) : List ℕ :=
  (boundarySplits Xd).filter (fun s => decide (msl ≤ min s (Xd.length - s)))

/-- Floor `epsilon = 0.001` of the renormalisation standard deviation. -/
def epsQ : ℚ := 1 / 1000

/-- Embedding of `_renormalise`: the intercept component is untouched, each
non-intercept component `gi` becomes `gi * (1/sigma) + (-mu/sigma) * g0`. -/
def renormalise (grad sigma muv : List ℚ) : List ℚ :=
  match grad with
  | [] => []
  | g0 :: rest =>
      g0 :: List.zipWith (fun gi q => gi * (1 / q.1) + (-q.2 / q.1) * g0)
        rest (sigma.zip muv)

/-- Gain of candidate boundary `s` in dimension `d`, including the
mean-shifted two-pass mean and standard deviation of `_get_mean_and_sigma`
and the renormalisation of the left/right gradient sums.  (In the corner
`N_l = 1` or `N_r = 1`, numpy divides by zero producing `inf` where `ℚ`
yields `0`; the claims proved below do not depend on the gain values.) -/
def gainAt (sq : ℚ → ℚ) (Pm : List (List ℚ)) (r : List ℚ) (X : List Row)
    (d : ℕ) (s : ℕ) : ℚ :=
  let xs := column d X
  let perm := argsortQ xs
  let g := gradRows Pm r
  let gsum := sumRows g
  let gsumLeft := sumRows ((permRows perm g).take s)
  let gsumRight := vsub gsum gsumLeft
  let nl : ℚ := s
  let nr : ℚ := (X.length : ℚ) - s
  let Pp := Pm.map (fun row => row.drop 1)
  let mu := colMeans Pp
  let shifted := (permRows perm Pp).map (fun row => vsub row mu)
  let sqRows := shifted.map (fun row => row.map (fun a => a ^ 2))
  let sumL := sumRows (shifted.take s)
  let sumR := vsub (sumRows shifted) sumL
  let sqSumL := sumRows (sqRows.take s)
  let sqSumR := vsub (sumRows sqRows) sqSumL
  let muL := sumL.map (fun a => a / nl)
  let muR := sumR.map (fun a => a / nr)
  let sigmaL := List.zipWith (fun x2 m => sq (max (x2 / (nl - 1) - m ^ 2) (epsQ ^ 2))) sqSumL muL
  let sigmaR := List.zipWith (fun x2 m => sq (max (x2 / (nr - 1) - m ^ 2) (epsQ ^ 2))) sqSumR muR
  let gL := renormalise gsumLeft sigmaL (vadd muL mu)
  let gR := renormalise gsumRight sigmaR (vadd muR mu)
  ((gL.map (fun a => a ^ 2)).sum) / nl + ((gR.map (fun a => a ^ 2)).sum) / nr

/-- Split value reported for boundary `s`:
`0.5 * (Xd[s-1] + Xd[s])`, the midpoint of the straddling feature values. -/
def splitValAt (Xd : List ℚ) (s : ℕ) : ℚ := (Xd.getD (s - 1) 0 + Xd.getD s 0) / 2

/-- One step of the running-maximum fold: a new candidate replaces the
incumbent only under the strict comparison `gain > gain_max` (`none` is the
initial `-inf`). -/
def bestStep {α β : Type} (f : α → Option (ℚ × β))
    (acc : Option (ℚ × α × β)) (a : α) : Option (ℚ × α × β) :=
  match f a with
  | none => acc
  | some gv =>
      match acc with
      | none => some (gv.1, a, gv.2)
      | some best => if best.1 < gv.1 then some (gv.1, a, gv.2) else acc

/-- Generic running-maximum fold with strict `>` replacement: the first
element attaining the final maximum wins (both `np.argmax` within a
dimension and the cross-dimension `if gain > gain_max` comparison). -/
def bestOf {α β : Type} (f : α → Option (ℚ × β)) (l : List α) : Option (ℚ × α × β) :=
  l.foldl (bestStep f) none

/-- Per-dimension result of the selector: `none` when fewer than 2 candidates
survive the size filter (`if len(splits) <= 1: continue`), otherwise the
first-maximal gain together with the midpoint split value. -/
def dimBest (sq : ℚ → ℚ) (msl : ℕ) (Pm : List (List ℚ)) (r : List ℚ)
    (X : List Row) (d : ℕ) : Option (ℚ × ℚ) :=
  let Xd := sortedColumn (column d X)
  let valid := validSplits msl Xd
  if valid.length ≤ 1 then none
  else (bestOf (fun s => some (gainAt sq Pm r X d s, splitValAt Xd s)) valid).map
    (fun q => (q.1, q.2.2))

/-- Embedding of `_find_split_from_grad`: `none` models the
`(False, None, None)` return (when `gain_max` stayed `-inf`), `some (d, v)`
the winning dimension and split value. -/
def findSplitFromGrad (sq : ℚ → ℚ) (msl : ℕ) (dims : List ℕ)
    (Pm : List (List ℚ)) (r : List ℚ) (X : List Row) : Option (ℕ × ℚ) :=
  (bestOf (fun d => dimBest sq msl Pm r X d) dims).map (fun q => (q.2.1, q.2.2))

/-! ### The node splitter (`_splitter`) -/

/-- Result dictionary of `_splitter`, plus the total number of `_fit_poly`
calls the splitter made. -/
structure SplitResult (P : Type) where
  didSplit : Bool
  loss : Option ℚ
  polys : Option (P × P)
  data : Option ((List Row × List ℚ) × (List Row × List ℚ))
  jFeature : Option ℕ
  threshold : Option ℚ
  nSamp : ℕ
  fits : ℕ

/-- Embedding of `_splitter`.  The search runs only when
`0 <= depth < max_depth` (`depth ≥ 0` is vacuous for `ℕ`).  For
`loss_gradient` one parent polynomial is fitted and threshold selection is
delegated to the gradient selector (with `split_dims` defaulting to all
dimensions, as the lazy initialisation does).  Afterwards, for the two
criteria that did not fit child surrogates during the search, the winning
split is re-derived with `_split_data` and the two children are fitted once
to produce the final loss and polynomials. -/
def splitterF {P : Type} (cfg : Cfg P) (X : List Row) (ys : List ℚ)
    (parentLoss : ℚ) (depth : ℕ) : SplitResult P :=
  let st :=
    if depth < cfg.maxDepth then
      match cfg.crit with
      | Crit.lossGradient =>
          let f0 := cfg.fitPoly X ys
          let Pm := cfg.basisGrad f0.2 X
          let r := (X.zip ys).map (fun q => q.2 - cfg.evalPoly f0.2 q.1)
          let dims := (cfg.splitDims).getD (List.range (numFeat X))
          (match findSplitFromGrad cfg.sqrtQ cfg.msl dims Pm r X with
           | some jv =>
               { initState cfg parentLoss with
                 didSplit := true, jBest := some jv.1, thrBest := some jv.2, fits := 1 }
           | none => { initState cfg parentLoss with fits := 1 })
      | _ => searchFold cfg X ys parentLoss
    else initState cfg parentLoss
  if cfg.crit ≠ Crit.modelAware ∧ st.didSplit = true then
    let j := st.jBest.getD 0
    let thr := st.thrBest.getD 0
    let sp := splitData j thr X ys
    let fl := cfg.fitPoly sp.1.1 sp.1.2
    let fr := cfg.fitPoly sp.2.1 sp.2.2
    let ls := ((sp.1.1.length : ℚ) * fl.1 + (sp.2.1.length : ℚ) * fr.1) / X.length
    { didSplit := st.didSplit, loss := some ls, polys := some (fl.2, fr.2),
      data := if cfg.crit = Crit.lossGradient then some sp else st.dataBest,
      jFeature := st.jBest, threshold := st.thrBest, nSamp := X.length,
      fits := st.fits + 2 }
  else
    { didSplit := st.didSplit, loss := st.lossBest, polys := st.polysBest,
      data := st.dataBest, jFeature := st.jBest, threshold := st.thrBest,
      nSamp := X.length, fits := st.fits }

/-! ### Tree assembler (`fit/_create_node`, `fit/_split_traverse_node`) -/

/-- Embedding of `_create_node` given the global index counter `c`:
`_fit_poly` increments the counter before the node record reads it, and node
creation increments it once more afterwards.  Returns the record and the new
counter; by construction every `_create_node` performs one `_fit_poly` call. -/
def createNode {P : Type} (cfg : Cfg P) (X : List Row) (ys : List ℚ)
    (depth c : ℕ) : NodeInfo P × ℕ :=
  let f := cfg.fitPoly X ys
  ({ index := c + 1, loss := f.1, poly := f.2, nSamples := X.length,
     jFeature := none, threshold := none, depth := depth,
     data := some (X, ys), testLoss := none, lowerLoss := none }, c + 2)

/-- Embedding of `_split_traverse_node`.  The counter state is the pair
`(index counter, number of _fit_poly calls so far)`; every `_fit_poly` call
advances both.  Recursion is structural on a fuel bounded by the remaining
depth budget (a node splits only when `depth < max_depth`, so any fuel above
`max_depth - depth` is exact; `fit` passes `max_depth + 1`).  On a split the
node's raw data is dropped unless `all_data`, two children are created by
`_create_node` — each performing a fresh `_fit_poly` call — and then the
children's `poly` fields (but not their `loss` fields) are overwritten with
the polynomials computed by the split search. -/
def splitTraverse {P : Type} (cfg : Cfg P) :
    ℕ → NodeInfo P → ℕ × ℕ → PTree P × (ℕ × ℕ)
  | 0, info, st => (PTree.leaf info, st)
  | Nat.succ fuel, info, st =>
      let dat := info.data.getD ([], [])
      let res := splitterF cfg dat.1 dat.2 info.loss info.depth
      let st1 := (st.1 + res.fits, st.2 + res.fits)
      if res.didSplit then
        let sp := res.data.getD (([], []), ([], []))
        let info2 := { info with
                       jFeature := res.jFeature
                       threshold := res.threshold
                       data := if cfg.allData then info.data else none }
        let cl := createNode cfg sp.1.1 sp.1.2 (info.depth + 1) st1.1
        let cr := createNode cfg sp.2.1 sp.2.2 (info.depth + 1) cl.2
        let pol := res.polys.getD (cl.1.poly, cr.1.poly)
        let lt := splitTraverse cfg fuel { cl.1 with poly := pol.1 } (cr.2, st1.2 + 2)
        let rt := splitTraverse cfg fuel { cr.1 with poly := pol.2 } lt.2
        (PTree.node info2 lt.1 rt.1, rt.2)
      else (PTree.leaf info, st1)

/-- Embedding of `fit`'s `_build_tree`: counter starts at 0, the root is
created (one `_fit_poly` call), then the tree is grown.  Returns the tree and
the final `(index counter, fit-call count)`. -/
def fitTree {P : Type} (cfg : Cfg P) (X : List Row) (ys : List ℚ) :
    PTree P × (ℕ × ℕ) :=
  let c0 := createNode cfg X ys 0 0
  splitTraverse cfg (cfg.maxDepth + 1) c0.1 (c0.2, 1)

/-- Modelled from the spec claim wording: a variant of
`_split_traverse_node` in which the two children are attached directly with
the losses and polynomials already computed by the split search, with no
`_fit_poly` call during child creation (the child `loss` value is the one
the search computed for that partition; the fit-call counter is not
advanced, and the index counter advances only by the node allocations).
Used only to compare the claimed behaviour with `splitTraverse`. -/
def splitTraverseNoRefit {P : Type} (cfg : Cfg P) :
    ℕ → NodeInfo P → ℕ × ℕ → PTree P × (ℕ × ℕ)
  | 0, info, st => (PTree.leaf info, st)
  | Nat.succ fuel, info, st =>
      let dat := info.data.getD ([], [])
      let res := splitterF cfg dat.1 dat.2 info.loss info.depth
      let st1 := (st.1 + res.fits, st.2 + res.fits)
      if res.didSplit then
        let sp := res.data.getD (([], []), ([], []))
        let info2 := { info with
                       jFeature := res.jFeature
                       threshold := res.threshold
                       data := if cfg.allData then info.data else none }
        let pol := res.polys.getD ((cfg.fitPoly sp.1.1 sp.1.2).2, (cfg.fitPoly sp.2.1 sp.2.2).2)
        let clInfo : NodeInfo P :=
          { index := st1.1, loss := (cfg.fitPoly sp.1.1 sp.1.2).1, poly := pol.1,
            nSamples := sp.1.1.length, jFeature := none, threshold := none,
            depth := info.depth + 1, data := some sp.1, testLoss := none, lowerLoss := none }
        let crInfo : NodeInfo P :=
          { index := st1.1 + 1, loss := (cfg.fitPoly sp.2.1 sp.2.2).1, poly := pol.2,
            nSamples := sp.2.1.length, jFeature := none, threshold := none,
            depth := info.depth + 1, data := some sp.2, testLoss := none, lowerLoss := none }
        let lt := splitTraverseNoRefit cfg fuel clInfo (st1.1 + 2, st1.2)
        let rt := splitTraverseNoRefit cfg fuel crInfo lt.2
        (PTree.node info2 lt.1 rt.1, rt.2)
      else (PTree.leaf info, st1)

/-- Modelled from the spec claim wording: `fit` with the no-refit assembler. -/
def fitTreeNoRefit {P : Type} (cfg : Cfg P) (X : List Row) (ys : List ℚ) :
    PTree P × (ℕ × ℕ) :=
  let c0 := createNode cfg X ys 0 0
  splitTraverseNoRefit cfg (cfg.maxDepth + 1) c0.1 (c0.2, 1)

/-! ### Smoothing-constant scaling at fit time -/

/-- Embedding of the `min_samples_leaf` resolution and `self.k *=
self.min_samples_leaf` statement executed by every `fit` call (source lines
348-353): if `min_samples_leaf` is unset or equals the basis cardinality it
becomes `int(np.ceil(cardinality * 1.25))`, and then `k` is multiplied by the
resolved value.  Returns the new `(min_samples_leaf, k)` pair. -/
def fitKUpdate (card : ℕ) (msl : Option ℕ) (k : ℚ) : ℕ × ℚ :=
  let m := if msl = none ∨ msl = some card
           then (⌈(5 * card : ℚ) / 4⌉).toNat
           else msl.getD 0
  (m, k * m)

/-! ### Concrete instances used by witnesses and counterexamples

With `P := ℚ` a fitted polynomial is represented by the constant value it
predicts, evaluated by `constEval`; with `P := Unit` the polynomials carry no
information at all (sufficient for claims that do not evaluate them). -/

/-- Evaluator for constant polynomials represented by their value. -/
def constEval : ℚ → Row → ℚ := fun c _ => c

/-- Left child of the two-leaf example trees: predicts 4, one training row. -/
def exLeafL : NodeInfo ℚ := { index := 2, poly := 4, nSamples := 1, depth := 1 }

/-- Right child of the two-leaf example trees: predicts 6, one training row. -/
def exLeafR : NodeInfo ℚ := { index := 3, poly := 6, nSamples := 1, depth := 1 }

/-- Root predicting 10, splitting feature 0 at threshold 0. -/
def exRoot1 : NodeInfo ℚ :=
  { index := 1, poly := 10, nSamples := 2, jFeature := some 0, threshold := some 0 }

/-- Same root but predicting 20. -/
def exRoot2 : NodeInfo ℚ :=
  { index := 1, poly := 20, nSamples := 2, jFeature := some 0, threshold := some 0 }

/-- Depth-1 tree whose root predicts 10. -/
def exT1 : PTree ℚ := PTree.node exRoot1 (PTree.leaf exLeafL) (PTree.leaf exLeafR)

/-- Depth-1 tree identical to `exT1` except the root predicts 20. -/
def exT2 : PTree ℚ := PTree.node exRoot2 (PTree.leaf exLeafL) (PTree.leaf exLeafR)

/-- Children used in the pruning examples: both predict 0. -/
def exPrLeft : NodeInfo ℚ := { index := 2, poly := 0, nSamples := 1, depth := 1 }

/-- Right pruning-example child. -/
def exPrRight : NodeInfo ℚ := { index := 3, poly := 0, nSamples := 1, depth := 1 }

/-- Pruning-example root: predicts 5 (exactly the held-out responses below),
split on feature 0 at threshold 0. -/
def exPrRoot : NodeInfo ℚ :=
  { index := 1, poly := 5, nSamples := 2, jFeature := some 0, threshold := some 0 }

/-- Depth-1 tree for the pruning examples. -/
def exPrTree : PTree ℚ := PTree.node exPrRoot (PTree.leaf exPrLeft) (PTree.leaf exPrRight)

/-- Configuration with `model_agnostic` splitting over trivial (`Unit`)
polynomials: fits always report loss 0 and the abstract square root is the
zero function.  Training data `[[0],[1]]`, `[0, 1]` admits the single valid
candidate threshold 0 when `min_samples_leaf = 1`. -/
def cfgAg : Cfg Unit :=
  { crit := Crit.modelAgnostic, searchMode := SearchMode.exhaustive, maxDepth := 5,
    msl := 1, samples := 50, fitPoly := fun _ _ => (0, ()), evalPoly := fun _ _ => 0,
    basisGrad := fun _ _ => [], sqrtQ := fun _ => 0 }

/-- Same configuration with the `model_aware` criterion. -/
def cfgAw : Cfg Unit := { cfgAg with crit := Crit.modelAware }

/-- Gradient-selector example: basis gradients of 4 samples and 2
coefficients (intercept plus one slope). -/
def exPm : List (List ℚ) := [[1, 0], [1, 1], [1, 2], [1, 3]]

/-- Residuals of the gradient-selector example. -/
def exR : List ℚ := [1, -1, 2, -2]

/-- Inputs of the gradient-selector example. -/
def exX : List Row := [[0], [1], [2], [3]]

/-! ## Theorems -/

/-- Paths recorded by `_predict` are never empty. -/
theorem pathOf_ne_nil {P : Type} (ev : P → Row → ℚ) (t : PTree P) (x : Row) :
    pathOf ev t x ≠ [] := by
  cases t <;> simp [pathOf]

/-- On a nonempty list `getLastD` does not depend on the default. -/
theorem getLastD_congr {α : Type} (l : List α) (a b : α) (h : l ≠ []) :
    l.getLastD a = l.getLastD b := by
  obtain ⟨y, hy⟩ := Option.isSome_iff_exists.mp (List.getLast?_isSome.mpr h)
  rw [List.getLastD_eq_getLast?, List.getLastD_eq_getLast?, hy]
  rfl

unseal Rat.mul Rat.add Rat.sub Rat.inv in
/-- Claim C1, counterexample: two trees that differ only in the root's
polynomial produce identical `predict` outputs on a routed row — the code's
blend never consumes the depth-0 entry — while the blend described by the
claim (running down to the root) distinguishes them.  Hence the root's
prediction does not participate in the blend for a tree with one split. -/
theorem predict_root_not_blended_cex :
    predictRow constEval 3 exT1 [-1] = predictRow constEval 3 exT2 [-1]
    ∧ (rootInfo exT1).poly ≠ (rootInfo exT2).poly
    ∧ claimSmoothRow constEval 3 exT1 [-1] ≠ claimSmoothRow constEval 3 exT2 [-1] := by
  decide

/-- Claim C1, amended: `predict` records the polynomial prediction and sample
count at every visited node, and blends them from the deepest level down to
depth 1 only; the depth-0 root entry is recorded but never blended, so the
output of a split tree is unchanged under any modification of the root's
polynomial and sample count, and a root-only tree returns the root's own
prediction. -/
theorem predict_blend_excludes_root {P : Type} (ev : P → Row → ℚ) (k : ℚ) :
    (∀ (i i2 : NodeInfo P) (l r : PTree P) (x : Row),
        i.jFeature = i2.jFeature → i.threshold = i2.threshold →
        predictRow ev k (PTree.node i l r) x = predictRow ev k (PTree.node i2 l r) x)
    ∧ (∀ (i : NodeInfo P) (x : Row), predictRow ev k (PTree.leaf i) x = ev i.poly x) := by
  constructor
  · intro i i2 l r x h1 h2
    unfold predictRow pathOf
    rw [h1, h2]
    have hne : (if colVal (i2.jFeature.getD 0) x ≤ i2.threshold.getD 0
        then pathOf ev l x else pathOf ev r x) ≠ [] := by
      split <;> exact pathOf_ne_nil ev _ x
    simp only [List.tail_cons, List.getLastD_cons]
    rw [getLastD_congr _ (ev i.poly x, i.nSamples) (ev i2.poly x, i2.nSamples) hne]
  · intro i x
    rfl

unseal Rat.mul Rat.add Rat.sub Rat.inv in
/-- Witness for `predict_blend_excludes_root` at the concrete example trees. -/
theorem predict_blend_excludes_root_witness :
    predictRow constEval 3 exT1 [-1] = predictRow constEval 3 exT2 [-1] :=
  (predict_blend_excludes_root constEval 3).1 exRoot1 exRoot2
    (PTree.leaf exLeafL) (PTree.leaf exLeafR) [-1] (by decide) (by decide)

unseal Rat.mul Rat.add Rat.sub Rat.inv in
/-- Claim C3, counterexample: a node receiving zero held-out rows gets
`test_loss = 0`, `n_samples = 0` and is returned immediately — its children
come back exactly as they were (their `test_loss` is never attached),
although actually visiting a child with the empty cascaded subset would have
modified it. -/
theorem prune_empty_children_not_visited_cex :
    prunerF constEval 0 exPrTree [] [] =
      PTree.node (setEmptyInfo exPrRoot) (PTree.leaf exPrLeft) (PTree.leaf exPrRight)
    ∧ prunerF constEval 0 (PTree.leaf exPrLeft) [] [] ≠ PTree.leaf exPrLeft := by
  decide

/-- Claim C3, amended: a node receiving zero held-out rows is assigned
`test_loss = 0` and `n_samples = 0` and is returned at once; its children are
left untouched — they are not visited, so no empty subsets cascade down. -/
theorem prune_empty_early_return {P : Type} (ev : P → Row → ℚ) (tol : ℚ) :
    ∀ (t : PTree P) (ys : List ℚ), prunerF ev tol t [] ys = zeroRoot t := by
  intro t ys
  cases t <;> rfl

/-- Claim C9, counterexample: with basis cardinality 2 and unset
`min_samples_leaf`, the first `fit` resolves `min_samples_leaf = 3` and
rescales `k = k0 * 3`; running the same fit-time update a second time (a
second `fit` call on the same object) leaves `min_samples_leaf = 3` but
multiplies `k` by 3 again, so `k` is `9 * k0`, not `k0 * min_samples_leaf`. -/
theorem k_rescaled_each_fit_cex :
    fitKUpdate 2 none (1/20) = (3, 3/20)
    ∧ fitKUpdate 2 (some 3) (3/20) = (3, 9/20)
    ∧ ((9 : ℚ)/20) ≠ (1/20) * 3 := by
  refine ⟨?_, ?_, by norm_num⟩
  · norm_num [fitKUpdate, show Int.toNat 3 = 3 from rfl,
      show ⌈(5:ℚ)/2⌉ = 3 from by norm_num [Int.ceil_eq_iff]]
  · norm_num [fitKUpdate, Option.some_ne_none,
      show ⌈(5:ℚ)/2⌉ = 3 from by norm_num [Int.ceil_eq_iff]]

/-- Claim C9, amended: each `fit` call multiplies `k` by the resolved
`min_samples_leaf`; the claimed relation `k = k0 * min_samples_leaf` holds
after the first call, but a second `fit` on the same tree multiplies by
`min_samples_leaf` again (the auto-derived value `⌈1.25·cardinality⌉`
exceeds the cardinality, so it is not re-derived and stays fixed). -/
theorem k_scaling_per_fit (card : ℕ) (k0 : ℚ) (h : 1 ≤ card) :
    ∃ m : ℕ, fitKUpdate card none k0 = (m, k0 * m)
      ∧ fitKUpdate card (some m) (k0 * m) = (m, k0 * m * m)
      ∧ card < m := by
  have hlt : (card : ℤ) < ⌈(5 * card : ℚ) / 4⌉ := by
    refine Int.lt_ceil.mpr ?_
    have h1 : (1 : ℚ) ≤ (card : ℚ) := by exact_mod_cast h
    push_cast
    linarith
  have hm : card < (⌈(5 * card : ℚ) / 4⌉).toNat := by
    omega
  refine ⟨(⌈(5 * card : ℚ) / 4⌉).toNat, ?_, ?_, hm⟩
  · unfold fitKUpdate
    rw [if_pos (Or.inl rfl)]
  · unfold fitKUpdate
    rw [if_neg]
    · simp
    · rintro (h2 | h2)
      · exact Option.noConfusion h2
      · exact absurd (Option.some.inj h2) (by omega)

/-- Witness for `k_scaling_per_fit` at cardinality 2, `k0 = 1/20`. -/
theorem k_scaling_per_fit_witness :
    ∃ m : ℕ, fitKUpdate 2 none (1/20) = (m, (1/20 : ℚ) * m)
      ∧ fitKUpdate 2 (some m) ((1/20 : ℚ) * m) = (m, (1/20 : ℚ) * m * m)
      ∧ 2 < m :=
  k_scaling_per_fit 2 (1/20) (by decide)

/-- Claim C10: `prune` on a tree whose root is a leaf fails: the top level
unconditionally partitions the held-out data with the root's
`j_feature`/`threshold`, which are `None` on a leaf, and the comparison with
`None` raises.  In particular a tree fitted with `max_depth = 0` (the root
never splits) makes `prune` fail rather than return the tree unchanged. -/
theorem prune_leaf_root_errors {P : Type} (ev : P → Row → ℚ) (tolP : ℚ) :
    (∀ (i : NodeInfo P) (X : List Row) (ys : List ℚ),
        pruneTree ev tolP (PTree.leaf i) X ys =
          Except.error "TypeError: root split fields are None")
    ∧ (∀ (cfg : Cfg P) (X Xh : List Row) (ys yh : List ℚ), cfg.maxDepth = 0 →
        ∃ i, (fitTree cfg X ys).1 = PTree.leaf i
          ∧ pruneTree ev tolP (fitTree cfg X ys).1 Xh yh =
              Except.error "TypeError: root split fields are None") := by
  constructor
  · intro i X ys
    rfl
  · intro cfg X Xh ys yh hm
    have h1 : (fitTree cfg X ys).1 = PTree.leaf (createNode cfg X ys 0 0).1 := by
      simp [fitTree, splitTraverse, splitterF, hm, initState]
    exact ⟨_, h1, by rw [h1]; rfl⟩

/-- Witness for `prune_leaf_root_errors` with a depth-0 configuration. -/
theorem prune_leaf_root_errors_witness :
    ∃ i, (fitTree { cfgAg with maxDepth := 0 } [[0], [1]] [0, 1]).1 = PTree.leaf i
      ∧ pruneTree (fun _ _ => 0) 0 (fitTree { cfgAg with maxDepth := 0 } [[0], [1]] [0, 1]).1
          [[0]] [1] = Except.error "TypeError: root split fields are None" :=
  (prune_leaf_root_errors (fun _ _ => 0) 0).2 { cfgAg with maxDepth := 0 }
    [[0], [1]] [[0]] [0, 1] [1] rfl

/-! ### Generic facts about the running-maximum fold -/

/-- Case analysis of one `bestStep`. -/
theorem bestStep_cases {α β : Type} (f : α → Option (ℚ × β))
    (acc : Option (ℚ × α × β)) (a : α) :
    (f a = none ∧ bestStep f acc a = acc)
    ∨ (∃ gx bx, f a = some (gx, bx)
        ∧ ((acc = none ∧ bestStep f acc a = some (gx, a, bx))
          ∨ (∃ p, acc = some p
              ∧ ((p.1 < gx ∧ bestStep f acc a = some (gx, a, bx))
                ∨ (¬ p.1 < gx ∧ bestStep f acc a = acc))))) := by
  unfold bestStep
  cases hfa : f a with
  | none => exact Or.inl ⟨rfl, rfl⟩
  | some gv =>
    refine Or.inr ⟨gv.1, gv.2, rfl, ?_⟩
    cases acc with
    | none => exact Or.inl ⟨rfl, rfl⟩
    | some p =>
      refine Or.inr ⟨p, rfl, ?_⟩
      by_cases hp : p.1 < gv.1
      · exact Or.inl ⟨hp, by simp [hp]⟩
      · exact Or.inr ⟨hp, by simp [hp]⟩

/-- A `bestStep` yields `none` exactly when both inputs were `none`. -/
theorem bestStep_none_iff {α β : Type} (f : α → Option (ℚ × β))
    (acc : Option (ℚ × α × β)) (a : α) :
    bestStep f acc a = none ↔ acc = none ∧ f a = none := by
  unfold bestStep
  cases hfa : f a with
  | none => simp
  | some gv =>
    cases acc with
    | none => simp
    | some p => by_cases hp : p.1 < gv.1 <;> simp [hp]

/-- The fold stays `none` exactly when it starts at `none` and every element
is scored `none`. -/
theorem bestFold_none_iff {α β : Type} (f : α → Option (ℚ × β)) :
    ∀ (l : List α) (acc : Option (ℚ × α × β)),
      l.foldl (bestStep f) acc = none ↔ (acc = none ∧ ∀ a ∈ l, f a = none) := by
  intro l
  induction l with
  | nil => intro acc; simp
  | cons x l ih =>
    intro acc
    rw [List.foldl_cons, ih, bestStep_none_iff]
    simp only [List.forall_mem_cons]
    tauto

/-- Characterisation of a `some` result of the fold: either the accumulator
survived untouched as the maximum, or the winner is an element of the list,
every earlier element (and the initial accumulator) scores strictly below it,
and every later element scores at most it — i.e. the first maximum wins. -/
theorem bestFold_some_spec {α β : Type} (f : α → Option (ℚ × β)) :
    ∀ (l : List α) (acc : Option (ℚ × α × β)) (g : ℚ) (a : α) (b : β),
      l.foldl (bestStep f) acc = some (g, a, b) →
      (acc = some (g, a, b) ∧ ∀ x ∈ l, ∀ g2 b2, f x = some (g2, b2) → g2 ≤ g)
      ∨ (∃ l1 l2, l = l1 ++ a :: l2 ∧ f a = some (g, b)
          ∧ (∀ p : ℚ × α × β, acc = some p → p.1 < g)
          ∧ (∀ x ∈ l1, ∀ g2 b2, f x = some (g2, b2) → g2 < g)
          ∧ (∀ x ∈ l2, ∀ g2 b2, f x = some (g2, b2) → g2 ≤ g)) := by
  intro l
  induction l with
  | nil =>
    intro acc g a b h
    exact Or.inl ⟨h, by simp⟩
  | cons x l ih =>
    intro acc g a b h
    rw [List.foldl_cons] at h
    rcases bestStep_cases f acc x with ⟨hfx, hstep⟩ |
      ⟨gx, bx, hfx, ⟨hacc, hstep⟩ | ⟨p, hacc, ⟨hlt, hstep⟩ | ⟨hnlt, hstep⟩⟩⟩
    · -- f x = none, accumulator passed through
      rcases ih _ g a b h with ⟨h1, h2⟩ | ⟨l1, l2, hl, h1, h2, h3, h4⟩
      · refine Or.inl ⟨by rw [← hstep, h1], ?_⟩
        intro y hy g2 b2 hf
        rcases List.mem_cons.mp hy with rfl | hy
        · rw [hf] at hfx; exact Option.noConfusion hfx
        · exact h2 y hy g2 b2 hf
      · refine Or.inr ⟨x :: l1, l2, by rw [hl]; rfl, h1, ?_, ?_, h4⟩
        · intro q hq; exact h2 q (by rw [hstep]; exact hq)
        · intro y hy g2 b2 hf
          rcases List.mem_cons.mp hy with rfl | hy
          · rw [hf] at hfx; exact Option.noConfusion hfx
          · exact h3 y hy g2 b2 hf
    · -- acc = none, x becomes the incumbent
      rcases ih _ g a b h with ⟨h1, h2⟩ | ⟨l1, l2, hl, h1, h2, h3, h4⟩
      · rw [hstep] at h1
        have hx := Option.some.inj h1
        obtain ⟨hg, hrest⟩ := Prod.mk.inj hx
        obtain ⟨ha, hb⟩ := Prod.mk.inj hrest
        subst hg; subst ha; subst hb
        refine Or.inr ⟨[], l, rfl, hfx, ?_, by simp, h2⟩
        intro p hp; rw [hp] at hacc; exact Option.noConfusion hacc
      · refine Or.inr ⟨x :: l1, l2, by rw [hl]; rfl, h1, ?_, ?_, h4⟩
        · intro p hp; rw [hp] at hacc; exact Option.noConfusion hacc
        · intro y hy g2 b2 hf
          rcases List.mem_cons.mp hy with rfl | hy
          · have hlast := h2 (gx, y, bx) (by rw [hstep])
            rw [hf] at hfx
            obtain ⟨e1, e2⟩ := Prod.mk.inj (Option.some.inj hfx)
            rw [e1]; exact hlast
          · exact h3 y hy g2 b2 hf
    · -- incumbent p strictly beaten by x
      rcases ih _ g a b h with ⟨h1, h2⟩ | ⟨l1, l2, hl, h1, h2, h3, h4⟩
      · rw [hstep] at h1
        have hx := Option.some.inj h1
        obtain ⟨hg, hrest⟩ := Prod.mk.inj hx
        obtain ⟨ha, hb⟩ := Prod.mk.inj hrest
        subst hg; subst ha; subst hb
        refine Or.inr ⟨[], l, rfl, hfx, ?_, by simp, h2⟩
        intro q hq
        rw [hacc] at hq
        rw [Option.some.inj hq.symm]
        exact hlt
      · refine Or.inr ⟨x :: l1, l2, by rw [hl]; rfl, h1, ?_, ?_, h4⟩
        · intro q hq
          rw [hacc] at hq
          rw [Option.some.inj hq.symm]
          exact lt_trans hlt (h2 (gx, x, bx) (by rw [hstep]))
        · intro y hy g2 b2 hf
          rcases List.mem_cons.mp hy with rfl | hy
          · have hlast := h2 (gx, y, bx) (by rw [hstep])
            rw [hf] at hfx
            obtain ⟨e1, e2⟩ := Prod.mk.inj (Option.some.inj hfx)
            rw [e1]; exact hlast
          · exact h3 y hy g2 b2 hf
    · -- incumbent p survives x
      rcases ih _ g a b h with ⟨h1, h2⟩ | ⟨l1, l2, hl, h1, h2, h3, h4⟩
      · refine Or.inl ⟨by rw [← hstep, h1], ?_⟩
        intro y hy g2 b2 hf
        rcases List.mem_cons.mp hy with rfl | hy
        · rw [hf] at hfx
          obtain ⟨e1, e2⟩ := Prod.mk.inj (Option.some.inj hfx)
          have hple : p.1 = g := by
            rw [hstep, hacc] at h1
            rw [Option.some.inj h1]
          rw [e1, ← hple]
          exact le_of_not_lt hnlt
        · exact h2 y hy g2 b2 hf
      · refine Or.inr ⟨x :: l1, l2, by rw [hl]; rfl, h1, ?_, ?_, h4⟩
        · intro q hq; exact h2 q (by rw [hstep]; exact hq)
        · intro y hy g2 b2 hf
          rcases List.mem_cons.mp hy with rfl | hy
          · rw [hf] at hfx
            obtain ⟨e1, e2⟩ := Prod.mk.inj (Option.some.inj hfx)
            have hpg : p.1 < g := h2 p (by rw [hstep]; exact hacc)
            rw [e1]
            exact lt_of_le_of_lt (le_of_not_lt hnlt) hpg
          · exact h3 y hy g2 b2 hf

/-- `bestOf` is `none` exactly when every element scores `none`. -/
theorem bestOf_none_iff {α β : Type} (f : α → Option (ℚ × β)) (l : List α) :
    bestOf f l = none ↔ ∀ a ∈ l, f a = none := by
  unfold bestOf
  rw [bestFold_none_iff]
  simp

/-- Characterisation of a `some` result of `bestOf`: the winner splits the
list, scores `(g, b)`, all earlier scores are strictly below `g` and all
later scores are at most `g`. -/
theorem bestOf_some_spec {α β : Type} (f : α → Option (ℚ × β)) (l : List α)
    (g : ℚ) (a : α) (b : β) (h : bestOf f l = some (g, a, b)) :
    ∃ l1 l2, l = l1 ++ a :: l2 ∧ f a = some (g, b)
      ∧ (∀ x ∈ l1, ∀ g2 b2, f x = some (g2, b2) → g2 < g)
      ∧ (∀ x ∈ l2, ∀ g2 b2, f x = some (g2, b2) → g2 ≤ g) := by
  rcases bestFold_some_spec f l none g a b h with ⟨h1, _⟩ | ⟨l1, l2, hl, h1, _, h3, h4⟩
  · exact Option.noConfusion h1
  · exact ⟨l1, l2, hl, h1, h3, h4⟩

/-! ### The sorted column: permutation, sortedness and counting -/

/-- Reading a list back through `getD` over `range` is the identity. -/
theorem map_getD_range (l : List ℚ) :
    (List.range l.length).map (fun i => l.getD i 0) = l := by
  apply List.ext_getElem
  · simp
  · intro i h1 h2
    rw [List.getElem_map, List.getElem_range, List.getD_eq_getElem l 0 h2]

/-- The argsort is a permutation of the index range. -/
theorem argsortQ_perm (xs : List ℚ) : (argsortQ xs).Perm (List.range xs.length) :=
  List.perm_insertionSort _ _

/-- The sorted column is a permutation of the column. -/
theorem sortedColumn_perm (xs : List ℚ) : (sortedColumn xs).Perm xs := by
  have h := (argsortQ_perm xs).map (fun i => xs.getD i 0)
  rw [map_getD_range] at h
  exact h

/-- The sorted column is sorted. -/
theorem sortedColumn_sorted (xs : List ℚ) :
    List.Sorted (· ≤ ·) (sortedColumn xs) := by
  have hs : List.Sorted (fun i j => xs.getD i 0 ≤ xs.getD j 0) (argsortQ xs) := by
    unfold argsortQ
    haveI : IsTotal ℕ (fun i j => xs.getD i 0 ≤ xs.getD j 0) := ⟨fun a b => le_total _ _⟩
    haveI : IsTrans ℕ (fun i j => xs.getD i 0 ≤ xs.getD j 0) :=
      ⟨fun a b c hab hbc => le_trans hab hbc⟩
    exact List.sorted_insertionSort _ _
  exact List.Pairwise.map _ (fun a b hab => hab) hs

/-- Length of the sorted column. -/
theorem sortedColumn_length (xs : List ℚ) : (sortedColumn xs).length = xs.length :=
  (sortedColumn_perm xs).length_eq

/-- Monotonicity of entries of a sorted list. -/
theorem sorted_getD_le {l : List ℚ} (hs : List.Sorted (· ≤ ·) l) {i j : ℕ}
    (hij : i ≤ j) (hj : j < l.length) : l.getD i 0 ≤ l.getD j 0 := by
  rcases Nat.eq_or_lt_of_le hij with rfl | hlt
  · exact le_refl _
  · have hi : i < l.length := lt_trans hlt hj
    rw [List.getD_eq_getElem l 0 hi, List.getD_eq_getElem l 0 hj]
    exact List.pairwise_iff_getElem.mp hs i j hi hj hlt

/-- Counting in a sorted list below a value strictly between two adjacent
entries yields the left entry's position. -/
theorem sorted_countP_eq {l : List ℚ} (hs : List.Sorted (· ≤ ·) l) (s : ℕ) (m : ℚ)
    (h0 : 0 < s) (hsl : s < l.length)
    (hlo : l.getD (s - 1) 0 < m) (hhi : m < l.getD s 0) :
    l.countP (fun a => decide (a ≤ m)) = s := by
  have hslen : s ≤ l.length := le_of_lt hsl
  have htake : (l.take s).countP (fun a => decide (a ≤ m)) = s := by
    rw [List.countP_eq_length.mpr, List.length_take]
    · omega
    · intro a ha
      obtain ⟨i, hi, hia⟩ := List.mem_iff_getElem.mp ha
      have hi2 : i < s := lt_of_lt_of_le hi (by rw [List.length_take]; exact min_le_left _ _)
      have hi3 : i < l.length := lt_of_lt_of_le hi2 hslen
      have hval : a = l.getD i 0 := by
        rw [List.getD_eq_getElem l 0 hi3, ← hia, List.getElem_take]
      have hle : l.getD i 0 ≤ l.getD (s - 1) 0 :=
        sorted_getD_le hs (by omega) (by omega)
      simp only [decide_eq_true_eq]
      rw [hval]
      exact le_of_lt (lt_of_le_of_lt hle hlo)
  have hdrop : (l.drop s).countP (fun a => decide (a ≤ m)) = 0 := by
    rw [List.countP_eq_zero.mpr]
    intro a ha
    obtain ⟨i, hi, hia⟩ := List.mem_iff_getElem.mp ha
    have hi3 : s + i < l.length := by
      rw [List.length_drop] at hi
      omega
    have hval : a = l.getD (s + i) 0 := by
      rw [List.getD_eq_getElem l 0 hi3, ← hia, List.getElem_drop]
    have hge : l.getD s 0 ≤ l.getD (s + i) 0 :=
      sorted_getD_le hs (Nat.le_add_right _ _) hi3
    simp only [decide_eq_true_eq]
    rw [hval]
    exact not_le_of_lt (lt_of_lt_of_le hhi hge)
  calc l.countP (fun a => decide (a ≤ m))
      = ((l.take s) ++ (l.drop s)).countP (fun a => decide (a ≤ m)) := by
        rw [List.take_append_drop]
    _ = s := by rw [List.countP_append, htake, hdrop]; omega

/-- Membership in the filtered candidate list of the gradient selector. -/
theorem mem_validSplits {msl s : ℕ} {Xd : List ℚ} :
    s ∈ validSplits msl Xd ↔
      0 < s ∧ s < Xd.length ∧ Xd.getD s 0 ≠ Xd.getD (s - 1) 0
        ∧ msl ≤ min s (Xd.length - s) := by
  simp only [validSplits, boundarySplits, List.mem_filter, List.mem_range,
    Bool.and_eq_true, decide_eq_true_eq]
  tauto

/-- Length of a fst-filtered zip. -/
theorem filter_zip_fst_length (p : Row → Bool) :
    ∀ (X : List Row) (ys : List ℚ), ys.length = X.length →
      ((X.zip ys).filter (fun q => p q.1)).length = X.countP p := by
  intro X
  induction X with
  | nil => intro ys _; simp
  | cons x xt ih =>
    intro ys h
    cases ys with
    | nil => simp at h
    | cons y yt =>
      have h2 : yt.length = xt.length := by simpa using h
      cases hp : p x <;>
        simp [List.filter_cons, List.countP_cons, hp, ih yt h2]

/-- Sizes of the two sides of `_split_data` as counts over the rows. -/
theorem splitData_lengths (j : ℕ) (thr : ℚ) (X : List Row) (ys : List ℚ)
    (hlen : ys.length = X.length) :
    (splitData j thr X ys).1.1.length
        = X.countP (fun row => decide (colVal j row ≤ thr))
    ∧ (splitData j thr X ys).2.1.length
        = X.length - X.countP (fun row => decide (colVal j row ≤ thr)) := by
  unfold splitData
  simp only [List.length_map]
  constructor
  · exact filter_zip_fst_length (fun row => decide (colVal j row ≤ thr)) X ys hlen
  · rw [filter_zip_fst_length (fun row => decide (¬ colVal j row ≤ thr)) X ys hlen]
    have hnot : (X.countP fun row => decide (¬ colVal j row ≤ thr))
        = X.countP fun row => decide (thr < colVal j row) := by
      simp only [not_le]
    rw [hnot]
    have hsum : X.length = X.countP (fun row => decide (colVal j row ≤ thr))
        + X.countP (fun row => decide (thr < colVal j row)) := by
      simpa using List.length_eq_countP_add_countP
        (fun row => decide (colVal j row ≤ thr)) X
    omega

/-- Count over the column equals count over the rows. -/
theorem countP_column (j : ℕ) (thr : ℚ) (X : List Row) :
    (column j X).countP (fun a => decide (a ≤ thr))
      = X.countP (fun row => decide (colVal j row ≤ thr)) := by
  unfold column
  rw [List.countP_map]
  rfl

/-- A candidate surviving the gradient selector's size filter splits the rows
at its midpoint threshold into sides of exactly `s` and `N - s` rows, both of
size at least `min_samples_leaf`. -/
theorem validSplit_split_counts (msl : ℕ) (X : List Row) (ys : List ℚ) (d s : ℕ)
    (hlen : ys.length = X.length)
    (hmem : s ∈ validSplits msl (sortedColumn (column d X))) :
    (splitData d (splitValAt (sortedColumn (column d X)) s) X ys).1.1.length = s
    ∧ (splitData d (splitValAt (sortedColumn (column d X)) s) X ys).2.1.length
        = X.length - s
    ∧ msl ≤ s ∧ msl ≤ X.length - s := by
  obtain ⟨h0, hsl, hne, hmin⟩ := mem_validSplits.mp hmem
  have hXdlen : (sortedColumn (column d X)).length = X.length := by
    rw [sortedColumn_length]
    simp [column]
  have hadj : (sortedColumn (column d X)).getD (s - 1) 0
      < (sortedColumn (column d X)).getD s 0 :=
    lt_of_le_of_ne
      (sorted_getD_le (sortedColumn_sorted _) (by omega) hsl)
      (Ne.symm hne)
  have hmid1 : (sortedColumn (column d X)).getD (s - 1) 0
      < splitValAt (sortedColumn (column d X)) s := by
    unfold splitValAt
    linarith
  have hmid2 : splitValAt (sortedColumn (column d X)) s
      < (sortedColumn (column d X)).getD s 0 := by
    unfold splitValAt
    linarith
  have hcount : (sortedColumn (column d X)).countP
      (fun a => decide (a ≤ splitValAt (sortedColumn (column d X)) s)) = s :=
    sorted_countP_eq (sortedColumn_sorted _) s _ h0 hsl hmid1 hmid2
  have hcol : (column d X).countP
      (fun a => decide (a ≤ splitValAt (sortedColumn (column d X)) s)) = s := by
    rw [← (sortedColumn_perm (column d X)).countP_eq]
    exact hcount
  have hrow : X.countP
      (fun row => decide (colVal d row ≤ splitValAt (sortedColumn (column d X)) s)) = s := by
    rw [← countP_column]
    exact hcol
  obtain ⟨hL, hR⟩ := splitData_lengths d (splitValAt (sortedColumn (column d X)) s) X ys hlen
  rw [hrow] at hL hR
  refine ⟨hL, hR, ?_, ?_⟩
  · exact le_trans hmin (min_le_left _ _)
  · calc msl ≤ min s ((sortedColumn (column d X)).length - s) := hmin
      _ ≤ (sortedColumn (column d X)).length - s := min_le_right _ _
      _ = X.length - s := by rw [hXdlen]

/-! ### Characterisation of the gradient split selector -/

/-- A dimension is skipped (scores `none`) exactly when fewer than 2
candidates survive the size filter. -/
theorem dimBest_none_iff (sq : ℚ → ℚ) (msl : ℕ) (Pm : List (List ℚ)) (r : List ℚ)
    (X : List Row) (d : ℕ) :
    dimBest sq msl Pm r X d = none ↔
      (validSplits msl (sortedColumn (column d X))).length ≤ 1 := by
  unfold dimBest
  by_cases h : (validSplits msl (sortedColumn (column d X))).length ≤ 1
  · simp [h]
  · rw [if_neg h]
    refine iff_of_false ?_ h
    intro hnone
    rw [Option.map_eq_none', bestOf_none_iff] at hnone
    have hne : validSplits msl (sortedColumn (column d X)) ≠ [] := by
      intro he
      rw [he] at h
      exact h (by simp)
    obtain ⟨s, hsmem⟩ := List.exists_mem_of_ne_nil _ hne
    exact Option.noConfusion (hnone s hsmem)

/-- A dimension's `some (gain, value)` result comes from a surviving
candidate boundary `s`: the gain is `gainAt s`, the value the midpoint at
`s`, earlier surviving candidates have strictly smaller gain (first maximum
wins, as `np.argmax` does) and later ones at most this gain. -/
theorem dimBest_some_spec (sq : ℚ → ℚ) (msl : ℕ) (Pm : List (List ℚ)) (r : List ℚ)
    (X : List Row) (d : ℕ) (g v : ℚ)
    (h : dimBest sq msl Pm r X d = some (g, v)) :
    ¬ (validSplits msl (sortedColumn (column d X))).length ≤ 1
    ∧ ∃ s l1 l2, validSplits msl (sortedColumn (column d X)) = l1 ++ s :: l2
      ∧ g = gainAt sq Pm r X d s ∧ v = splitValAt (sortedColumn (column d X)) s
      ∧ (∀ s2 ∈ l1, gainAt sq Pm r X d s2 < g)
      ∧ (∀ s2 ∈ l2, gainAt sq Pm r X d s2 ≤ g) := by
  unfold dimBest at h
  by_cases hlen : (validSplits msl (sortedColumn (column d X))).length ≤ 1
  · rw [if_pos hlen] at h
    exact Option.noConfusion h
  · rw [if_neg hlen] at h
    refine ⟨hlen, ?_⟩
    obtain ⟨q, hq, hmap⟩ := Option.map_eq_some'.mp h
    obtain ⟨g0, s0, v0⟩ := q
    obtain ⟨e1, e2⟩ := Prod.mk.inj hmap
    subst e1
    subst e2
    obtain ⟨l1, l2, hdecomp, hfa, hstrict, hle⟩ := bestOf_some_spec _ _ _ _ _ hq
    obtain ⟨eg, ev⟩ := Prod.mk.inj (Option.some.inj hfa)
    refine ⟨s0, l1, l2, hdecomp, eg.symm, ev.symm, ?_, ?_⟩
    · intro s2 hs2
      exact hstrict s2 hs2 (gainAt sq Pm r X d s2)
        (splitValAt (sortedColumn (column d X)) s2) rfl
    · intro s2 hs2
      exact hle s2 hs2 (gainAt sq Pm r X d s2)
        (splitValAt (sortedColumn (column d X)) s2) rfl

/-- The selector reports no split exactly when every allowed dimension is
skipped. -/
theorem findSplitFromGrad_none_iff (sq : ℚ → ℚ) (msl : ℕ) (dims : List ℕ)
    (Pm : List (List ℚ)) (r : List ℚ) (X : List Row) :
    findSplitFromGrad sq msl dims Pm r X = none ↔
      ∀ d ∈ dims, dimBest sq msl Pm r X d = none := by
  unfold findSplitFromGrad
  rw [Option.map_eq_none', bestOf_none_iff]

/-- A reported split comes from a non-skipped dimension whose gain strictly
beats every earlier dimension's best gain and is at least every later
dimension's best gain (first dimension wins ties). -/
theorem findSplitFromGrad_some_spec (sq : ℚ → ℚ) (msl : ℕ) (dims : List ℕ)
    (Pm : List (List ℚ)) (r : List ℚ) (X : List Row) (dw : ℕ) (v : ℚ)
    (h : findSplitFromGrad sq msl dims Pm r X = some (dw, v)) :
    ∃ g l1 l2, dims = l1 ++ dw :: l2
      ∧ dimBest sq msl Pm r X dw = some (g, v)
      ∧ (∀ d ∈ l1, ∀ g2 v2, dimBest sq msl Pm r X d = some (g2, v2) → g2 < g)
      ∧ (∀ d ∈ l2, ∀ g2 v2, dimBest sq msl Pm r X d = some (g2, v2) → g2 ≤ g) := by
  unfold findSplitFromGrad at h
  obtain ⟨q, hq, hmap⟩ := Option.map_eq_some'.mp h
  obtain ⟨g0, d0, v0⟩ := q
  obtain ⟨e1, e2⟩ := Prod.mk.inj hmap
  subst e1
  subst e2
  obtain ⟨l1, l2, hdecomp, hfa, hstrict, hle⟩ := bestOf_some_spec _ _ _ _ _ hq
  exact ⟨g0, l1, l2, hdecomp, hfa, hstrict, hle⟩

/-- Claim C6: the gradient split selector (i) takes as candidate boundaries
exactly the in-range positions after the first where the sorted feature value
changes, subject to both sides having at least `min_samples_leaf` samples;
(ii) skips a dimension retaining fewer than 2 candidates and reports no
split exactly when every allowed dimension is skipped; (iii) otherwise
returns the dimension of maximal per-dimension best gain under a strict `>`
comparison (first dimension wins ties, and within a dimension the first
maximal-gain candidate wins), with split value the midpoint of the two
feature values straddling the winning boundary. -/
theorem grad_selector_spec (sq : ℚ → ℚ) (msl : ℕ) (dims : List ℕ)
    (Pm : List (List ℚ)) (r : List ℚ) (X : List Row) :
    (∀ d s, s ∈ validSplits msl (sortedColumn (column d X)) ↔
        (0 < s ∧ s < (sortedColumn (column d X)).length
          ∧ (sortedColumn (column d X)).getD s 0 ≠ (sortedColumn (column d X)).getD (s - 1) 0
          ∧ msl ≤ min s ((sortedColumn (column d X)).length - s)))
    ∧ (∀ d, dimBest sq msl Pm r X d = none ↔
        (validSplits msl (sortedColumn (column d X))).length ≤ 1)
    ∧ (findSplitFromGrad sq msl dims Pm r X = none ↔
        ∀ d ∈ dims, (validSplits msl (sortedColumn (column d X))).length ≤ 1)
    ∧ (∀ dw v, findSplitFromGrad sq msl dims Pm r X = some (dw, v) →
        ∃ g l1 l2, dims = l1 ++ dw :: l2
          ∧ dimBest sq msl Pm r X dw = some (g, v)
          ∧ (∀ d ∈ l1, ∀ g2 v2, dimBest sq msl Pm r X d = some (g2, v2) → g2 < g)
          ∧ (∀ d ∈ l2, ∀ g2 v2, dimBest sq msl Pm r X d = some (g2, v2) → g2 ≤ g))
    ∧ (∀ d g v, dimBest sq msl Pm r X d = some (g, v) →
        ∃ s l1 l2, validSplits msl (sortedColumn (column d X)) = l1 ++ s :: l2
          ∧ g = gainAt sq Pm r X d s ∧ v = splitValAt (sortedColumn (column d X)) s
          ∧ (∀ s2 ∈ l1, gainAt sq Pm r X d s2 < g)
          ∧ (∀ s2 ∈ l2, gainAt sq Pm r X d s2 ≤ g)) := by
  refine ⟨fun d s => mem_validSplits, fun d => dimBest_none_iff sq msl Pm r X d, ?_, ?_, ?_⟩
  · rw [findSplitFromGrad_none_iff]
    constructor
    · intro hall d hd
      exact (dimBest_none_iff sq msl Pm r X d).mp (hall d hd)
    · intro hall d hd
      exact (dimBest_none_iff sq msl Pm r X d).mpr (hall d hd)
  · intro dw v h
    exact findSplitFromGrad_some_spec sq msl dims Pm r X dw v h
  · intro d g v h
    exact (dimBest_some_spec sq msl Pm r X d g v h).2

unseal Rat.mul Rat.add Rat.sub Rat.inv in
/-- Witness for `grad_selector_spec` on the concrete 4-sample instance: the
selector picks dimension 0 with split value `5/2`. -/
theorem grad_selector_spec_witness :
    ∃ g l1 l2, [0] = l1 ++ 0 :: l2
      ∧ dimBest id 1 exPm exR exX 0 = some (g, 5/2)
      ∧ (∀ d ∈ l1, ∀ g2 v2, dimBest id 1 exPm exR exX d = some (g2, v2) → g2 < g)
      ∧ (∀ d ∈ l2, ∀ g2 v2, dimBest id 1 exPm exR exX d = some (g2, v2) → g2 ≤ g) :=
  (grad_selector_spec id 1 [0] exPm exR exX).2.2.2.1 0 (5/2) (by decide)

/-! ### Behaviour of the threshold-search loop -/

/-- Fold preservation of an invariant. -/
theorem foldl_inv {α β : Type} (Inv : β → Prop) (f : β → α → β)
    (hstep : ∀ b a, Inv b → Inv (f b a)) :
    ∀ (l : List α) (b : β), Inv b → Inv (l.foldl f b) := by
  intro l
  induction l with
  | nil => intro b hb; exact hb
  | cons x t ih => intro b hb; exact ih _ (hstep b x hb)

/-- Exhaustive case analysis of one candidate evaluation. -/
theorem evalCand_cases {P : Type} (cfg : Cfg P) (X : List Row) (ys : List ℚ)
    (j : ℕ) (thr : ℚ) (st : SState P) :
    (sizesOk cfg.msl j thr X ys = false ∧ evalCand cfg X ys j thr st = st)
    ∨ (sizesOk cfg.msl j thr X ys = true ∧
        ((cfg.crit = Crit.modelAware ∧
            ((ltBest (awLoss cfg X ys j thr) st.lossBest = true ∧
                evalCand cfg X ys j thr st =
                  { didSplit := true
                    lossBest := some (awLoss cfg X ys j thr)
                    dataBest := some (splitData j thr X ys)
                    polysBest := some
                      ((cfg.fitPoly (splitData j thr X ys).1.1 (splitData j thr X ys).1.2).2,
                        (cfg.fitPoly (splitData j thr X ys).2.1 (splitData j thr X ys).2.2).2)
                    jBest := some j
                    thrBest := some thr
                    fits := st.fits + 2 })
              ∨ (ltBest (awLoss cfg X ys j thr) st.lossBest = false ∧
                  evalCand cfg X ys j thr st = { st with fits := st.fits + 2 })))
          ∨ (cfg.crit = Crit.modelAgnostic ∧
              ((ltBest (agLoss cfg X ys j thr) st.lossBest = true ∧
                  evalCand cfg X ys j thr st =
                    { st with
                      didSplit := true
                      lossBest := some (agLoss cfg X ys j thr)
                      dataBest := some (splitData j thr X ys)
                      jBest := some j
                      thrBest := some thr })
                ∨ (ltBest (agLoss cfg X ys j thr) st.lossBest = false ∧
                    evalCand cfg X ys j thr st = st)))
          ∨ (cfg.crit = Crit.lossGradient ∧ evalCand cfg X ys j thr st = st))) := by
  cases hsz : sizesOk cfg.msl j thr X ys with
  | false =>
    refine Or.inl ⟨rfl, ?_⟩
    simp [evalCand, hsz]
  | true =>
    refine Or.inr ⟨rfl, ?_⟩
    cases hc : cfg.crit with
    | modelAware =>
      refine Or.inl ⟨rfl, ?_⟩
      cases hlb : ltBest (awLoss cfg X ys j thr) st.lossBest with
      | true =>
        refine Or.inl ⟨rfl, ?_⟩
        simp [evalCand, hsz, hc, hlb]
      | false =>
        refine Or.inr ⟨rfl, ?_⟩
        simp [evalCand, hsz, hc, hlb]
    | modelAgnostic =>
      refine Or.inr (Or.inl ⟨rfl, ?_⟩)
      cases hlb : ltBest (agLoss cfg X ys j thr) st.lossBest with
      | true =>
        refine Or.inl ⟨rfl, ?_⟩
        simp [evalCand, hsz, hc, hlb]
      | false =>
        refine Or.inr ⟨rfl, ?_⟩
        simp [evalCand, hsz, hc, hlb]
    | lossGradient =>
      refine Or.inr (Or.inr ⟨rfl, ?_⟩)
      simp [evalCand, hsz, hc]

/-- The invariant carried by every state of the threshold search: whenever
`did_split` has been set, the recorded best is an actual candidate passing
the size gate, the recorded partition is exactly `_split_data` at that
candidate, and under `model_aware` the two fitted child polynomials are
recorded as well. -/
theorem searchFold_didSplit_spec {P : Type} (cfg : Cfg P) (X : List Row)
    (ys : List ℚ) (pl : ℚ) :
    (searchFold cfg X ys pl).didSplit = true →
      ∃ j thr, (searchFold cfg X ys pl).jBest = some j
        ∧ (searchFold cfg X ys pl).thrBest = some thr
        ∧ (searchFold cfg X ys pl).dataBest = some (splitData j thr X ys)
        ∧ sizesOk cfg.msl j thr X ys = true
        ∧ (cfg.crit = Crit.modelAware →
            ∃ pq : P × P, (searchFold cfg X ys pl).polysBest = some pq) := by
  unfold searchFold
  refine foldl_inv (fun st : SState P => st.didSplit = true →
      ∃ j thr, st.jBest = some j ∧ st.thrBest = some thr
        ∧ st.dataBest = some (splitData j thr X ys)
        ∧ sizesOk cfg.msl j thr X ys = true
        ∧ (cfg.crit = Crit.modelAware → ∃ pq : P × P, st.polysBest = some pq))
    _ ?_ _ _ ?_
  · intro st j hst
    refine foldl_inv (fun st : SState P => st.didSplit = true →
        ∃ j thr, st.jBest = some j ∧ st.thrBest = some thr
          ∧ st.dataBest = some (splitData j thr X ys)
          ∧ sizesOk cfg.msl j thr X ys = true
          ∧ (cfg.crit = Crit.modelAware → ∃ pq : P × P, st.polysBest = some pq))
      _ ?_ _ _ hst
    intro st2 thr h2
    rcases evalCand_cases cfg X ys j thr st2 with ⟨_, heq⟩ |
      ⟨hsz, ⟨hc, ⟨_, heq⟩ | ⟨_, heq⟩⟩ | ⟨hc, ⟨_, heq⟩ | ⟨_, heq⟩⟩ | ⟨_, heq⟩⟩
    · rw [heq]; exact h2
    · rw [heq]
      intro _
      exact ⟨j, thr, rfl, rfl, rfl, hsz, fun _ => ⟨_, rfl⟩⟩
    · rw [heq]
      intro hds
      obtain ⟨j0, thr0, e1, e2, e3, e4, e5⟩ := h2 hds
      exact ⟨j0, thr0, e1, e2, e3, e4, e5⟩
    · rw [heq]
      intro _
      refine ⟨j, thr, rfl, rfl, rfl, hsz, fun hcc => ?_⟩
      rw [hc] at hcc
      exact Crit.noConfusion hcc
    · rw [heq]; exact h2
    · rw [heq]; exact h2
  · intro h
    simp [initState] at h

/-- Claim C4: under every splitting criterion and either search mode, a
split accepted by `_splitter` comes with a recorded partition in which both
children have at least `min_samples_leaf` training rows (candidates below
the bound are rejected during the search, and the gradient selector's
midpoint thresholds reproduce the counts it filtered on). -/
theorem split_respects_min_samples_leaf {P : Type} (cfg : Cfg P) (X : List Row)
    (ys : List ℚ) (pl : ℚ) (depth : ℕ) (hlen : ys.length = X.length)
    (hs : (splitterF cfg X ys pl depth).didSplit = true) :
    ∃ dl dr, (splitterF cfg X ys pl depth).data = some (dl, dr)
      ∧ cfg.msl ≤ dl.1.length ∧ cfg.msl ≤ dr.1.length := by
  by_cases hd : depth < cfg.maxDepth
  case neg =>
    exfalso
    have : (splitterF cfg X ys pl depth).didSplit = false := by
      simp [splitterF, hd, initState]
    rw [this] at hs
    exact Bool.noConfusion hs
  case pos =>
    cases hc : cfg.crit with
    | modelAware =>
      have hpost : ¬ (cfg.crit ≠ Crit.modelAware ∧
          (searchFold cfg X ys pl).didSplit = true) := by
        rintro ⟨hne, _⟩
        exact hne hc
      have hres : splitterF cfg X ys pl depth =
          { didSplit := (searchFold cfg X ys pl).didSplit
            loss := (searchFold cfg X ys pl).lossBest
            polys := (searchFold cfg X ys pl).polysBest
            data := (searchFold cfg X ys pl).dataBest
            jFeature := (searchFold cfg X ys pl).jBest
            threshold := (searchFold cfg X ys pl).thrBest
            nSamp := X.length
            fits := (searchFold cfg X ys pl).fits } := by
        simp [splitterF, hd, hc, hpost]
      rw [hres] at hs ⊢
      obtain ⟨j, thr, e1, e2, e3, e4, _⟩ := searchFold_didSplit_spec cfg X ys pl hs
      simp only [sizesOk, Bool.and_eq_true, decide_eq_true_eq] at e4
      exact ⟨(splitData j thr X ys).1, (splitData j thr X ys).2, by simp [e3], e4.1, e4.2⟩
    | modelAgnostic =>
      have hds0 : (searchFold cfg X ys pl).didSplit = true := by
        by_contra hn
        have hn2 : (searchFold cfg X ys pl).didSplit = false :=
          Bool.eq_false_iff.mpr hn
        have : (splitterF cfg X ys pl depth).didSplit = false := by
          simp [splitterF, hd, hc, hn2]
        rw [this] at hs
        exact Bool.noConfusion hs
      have hpost : cfg.crit ≠ Crit.modelAware ∧
          (searchFold cfg X ys pl).didSplit = true := by
        refine ⟨?_, hds0⟩
        rw [hc]
        intro hcc
        exact Crit.noConfusion hcc
      obtain ⟨j, thr, e1, e2, e3, e4, _⟩ := searchFold_didSplit_spec cfg X ys pl hds0
      have hdata : (splitterF cfg X ys pl depth).data = (searchFold cfg X ys pl).dataBest := by
        simp [splitterF, hd, hc, hpost, hds0]
      simp only [sizesOk, Bool.and_eq_true, decide_eq_true_eq] at e4
      exact ⟨(splitData j thr X ys).1, (splitData j thr X ys).2,
        by rw [hdata]; simp [e3], e4.1, e4.2⟩
    | lossGradient =>
      cases hsel : findSplitFromGrad cfg.sqrtQ cfg.msl
          ((cfg.splitDims).getD (List.range (numFeat X)))
          (cfg.basisGrad (cfg.fitPoly X ys).2 X)
          ((X.zip ys).map (fun q => q.2 - cfg.evalPoly (cfg.fitPoly X ys).2 q.1)) X with
      | none =>
        exfalso
        have : (splitterF cfg X ys pl depth).didSplit = false := by
          simp [splitterF, hd, hc, hsel, initState]
        rw [this] at hs
        exact Bool.noConfusion hs
      | some jv =>
        obtain ⟨dw, v⟩ := jv
        have hdata : (splitterF cfg X ys pl depth).data = some (splitData dw v X ys) := by
          simp [splitterF, hd, hc, hsel, initState]
        obtain ⟨g, l1, l2, hdecomp, hdb, _, _⟩ :=
          findSplitFromGrad_some_spec _ _ _ _ _ _ dw v hsel
        obtain ⟨_, s, v1, v2, hvdecomp, _, hval, _, _⟩ :=
          dimBest_some_spec _ _ _ _ _ dw g v hdb
        have hsmem : s ∈ validSplits cfg.msl (sortedColumn (column dw X)) := by
          rw [hvdecomp]
          exact List.mem_append_right _ (List.mem_cons_self _ _)
        obtain ⟨hL, hR, hmsL, hmsR⟩ :=
          validSplit_split_counts cfg.msl X ys dw s hlen hsmem
        rw [← hval] at hL hR
        exact ⟨(splitData dw v X ys).1, (splitData dw v X ys).2, by simp [hdata],
          by rw [hL]; exact hmsL, by rw [hR]; exact hmsR⟩

unseal Rat.mul Rat.add Rat.sub Rat.inv in
/-- Witness for `split_respects_min_samples_leaf` on the concrete
`model_agnostic` instance, which does split. -/
theorem split_respects_min_samples_leaf_witness :
    ∃ dl dr, (splitterF cfgAg [[0], [1]] [0, 1] 0 0).data = some (dl, dr)
      ∧ cfgAg.msl ≤ dl.1.length ∧ cfgAg.msl ≤ dr.1.length :=
  split_respects_min_samples_leaf cfgAg [[0], [1]] [0, 1] 0 0 (by decide) (by decide)

/-! ### The model-aware loss invariant (claim C5) -/

/-- Along the `model_aware` search the running best loss is always defined,
never exceeds the parent's own loss, and is strictly below it as soon as a
split has been accepted. -/
theorem searchFold_aware_loss {P : Type} (cfg : Cfg P) (X : List Row)
    (ys : List ℚ) (pl : ℚ) (hc : cfg.crit = Crit.modelAware) :
    ∃ v, (searchFold cfg X ys pl).lossBest = some v ∧ v ≤ pl
      ∧ ((searchFold cfg X ys pl).didSplit = true → v < pl) := by
  unfold searchFold
  refine foldl_inv (fun st : SState P =>
      ∃ v, st.lossBest = some v ∧ v ≤ pl ∧ (st.didSplit = true → v < pl)) _ ?_ _ _ ?_
  · intro st j hst
    refine foldl_inv (fun st : SState P =>
        ∃ v, st.lossBest = some v ∧ v ≤ pl ∧ (st.didSplit = true → v < pl)) _ ?_ _ _ hst
    intro st2 thr h2
    rcases evalCand_cases cfg X ys j thr st2 with ⟨_, heq⟩ |
      ⟨hsz, ⟨hc2, ⟨hlb, heq⟩ | ⟨_, heq⟩⟩ | ⟨hc2, _⟩ | ⟨hc2, _⟩⟩
    · rw [heq]; exact h2
    · rw [heq]
      obtain ⟨v, hv, hvle, _⟩ := h2
      rw [hv] at hlb
      simp only [ltBest, decide_eq_true_eq] at hlb
      exact ⟨awLoss cfg X ys j thr, rfl, le_of_lt (lt_of_lt_of_le hlb hvle),
        fun _ => lt_of_lt_of_le hlb hvle⟩
    · rw [heq]
      obtain ⟨v, hv, hvle, himp⟩ := h2
      exact ⟨v, hv, hvle, himp⟩
    · rw [hc] at hc2; exact Crit.noConfusion hc2
    · rw [hc] at hc2; exact Crit.noConfusion hc2
  · refine ⟨pl, ?_, le_refl _, fun h => ?_⟩
    · simp [initState, hc]
    · simp [initState] at h

/-- Claim C5: under `model_aware` the running best loss is initialised to the
parent's own loss; a node splits only when some candidate's size-weighted
child loss is strictly below the parent's loss (so the reported loss is
strictly below it); and a candidate whose weighted child loss equals the
current best leaves the search state unchanged apart from the two fit calls
the candidate cost (strict `<` comparison: ties never replace). -/
theorem model_aware_strict_improvement {P : Type} (cfg : Cfg P) (X : List Row)
    (ys : List ℚ) (pl : ℚ) (depth : ℕ) (hc : cfg.crit = Crit.modelAware) :
    (initState cfg pl).lossBest = some pl
    ∧ ((splitterF cfg X ys pl depth).didSplit = true →
        ∃ v, (splitterF cfg X ys pl depth).loss = some v ∧ v < pl)
    ∧ (∀ (st : SState P) (j : ℕ) (thr : ℚ),
        st.lossBest = some (awLoss cfg X ys j thr) →
        evalCand cfg X ys j thr st =
          { st with fits := st.fits + if sizesOk cfg.msl j thr X ys then 2 else 0 }) := by
  refine ⟨by simp [initState, hc], ?_, ?_⟩
  · intro hs
    by_cases hd : depth < cfg.maxDepth
    case neg =>
      exfalso
      have : (splitterF cfg X ys pl depth).didSplit = false := by
        simp [splitterF, hd, initState]
      rw [this] at hs
      exact Bool.noConfusion hs
    case pos =>
      have hpost : ¬ (cfg.crit ≠ Crit.modelAware ∧
          (searchFold cfg X ys pl).didSplit = true) := by
        rintro ⟨hne, _⟩
        exact hne hc
      have hloss : (splitterF cfg X ys pl depth).loss =
          (searchFold cfg X ys pl).lossBest := by
        simp [splitterF, hd, hc, hpost]
      have hds : (splitterF cfg X ys pl depth).didSplit =
          (searchFold cfg X ys pl).didSplit := by
        simp [splitterF, hd, hc, hpost]
      obtain ⟨v, hv, _, himp⟩ := searchFold_aware_loss cfg X ys pl hc
      rw [hds] at hs
      exact ⟨v, by rw [hloss]; exact hv, himp hs⟩
  · intro st j thr hbest
    rcases evalCand_cases cfg X ys j thr st with ⟨hsz, heq⟩ |
      ⟨hsz, ⟨hc2, ⟨hlb, heq⟩ | ⟨hlb, heq⟩⟩ | ⟨hc2, _⟩ | ⟨hc2, _⟩⟩
    · rw [heq, hsz]
      simp
    · exfalso
      rw [hbest] at hlb
      simp [ltBest] at hlb
    · rw [heq, hsz]
      simp
    · rw [hc] at hc2; exact Crit.noConfusion hc2
    · rw [hc] at hc2; exact Crit.noConfusion hc2

unseal Rat.mul Rat.add Rat.sub Rat.inv in
/-- Witness for `model_aware_strict_improvement`: on the two-point instance
with parent loss 1 the weighted child loss 0 wins strictly. -/
theorem model_aware_strict_improvement_witness :
    ∃ v, (splitterF cfgAw [[0], [1]] [0, 1] 1 0).loss = some v ∧ v < 1 :=
  (model_aware_strict_improvement cfgAw [[0], [1]] [0, 1] 1 0 rfl).2.1 (by decide)

/-! ### The model-agnostic criterion (claim C7) -/

/-- Along the `model_agnostic` search no polynomial is ever fitted and the
best loss is still `+inf` (`none`) while no split has been accepted. -/
theorem searchFold_agnostic_inv {P : Type} (cfg : Cfg P) (X : List Row)
    (ys : List ℚ) (pl : ℚ) (hc : cfg.crit = Crit.modelAgnostic) :
    (searchFold cfg X ys pl).fits = 0
    ∧ ((searchFold cfg X ys pl).didSplit = false →
        (searchFold cfg X ys pl).lossBest = none) := by
  unfold searchFold
  refine foldl_inv (fun st : SState P =>
      st.fits = 0 ∧ (st.didSplit = false → st.lossBest = none)) _ ?_ _ _ ?_
  · intro st j hst
    refine foldl_inv (fun st : SState P =>
        st.fits = 0 ∧ (st.didSplit = false → st.lossBest = none)) _ ?_ _ _ hst
    intro st2 thr h2
    rcases evalCand_cases cfg X ys j thr st2 with ⟨_, heq⟩ |
      ⟨hsz, ⟨hc2, _⟩ | ⟨hc2, ⟨hlb, heq⟩ | ⟨hlb, heq⟩⟩ | ⟨hc2, _⟩⟩
    · rw [heq]; exact h2
    · rw [hc] at hc2; exact Crit.noConfusion hc2
    · rw [heq]
      exact ⟨h2.1, fun hf => Bool.noConfusion hf⟩
    · rw [heq]; exact h2
    · rw [hc] at hc2; exact Crit.noConfusion hc2
  · exact ⟨rfl, fun _ => by simp [initState, hc]⟩

/-- Processing a size-valid candidate under `model_agnostic` always leaves
`did_split` set: its score is finite, so it beats `+inf` when nothing has
been accepted yet, and acceptance is monotone. -/
theorem evalCand_agnostic_forces {P : Type} (cfg : Cfg P) (X : List Row)
    (ys : List ℚ) (j : ℕ) (thr : ℚ) (st : SState P)
    (hc : cfg.crit = Crit.modelAgnostic)
    (hsz : sizesOk cfg.msl j thr X ys = true)
    (hinv : st.didSplit = false → st.lossBest = none) :
    (evalCand cfg X ys j thr st).didSplit = true := by
  rcases evalCand_cases cfg X ys j thr st with ⟨hsz2, _⟩ |
    ⟨_, ⟨hc2, _⟩ | ⟨hc2, ⟨hlb, heq⟩ | ⟨hlb, heq⟩⟩ | ⟨hc2, _⟩⟩
  · rw [hsz2] at hsz; exact Bool.noConfusion hsz
  · rw [hc] at hc2; exact Crit.noConfusion hc2
  · rw [heq]
  · cases hds : st.didSplit with
    | true => rw [heq]; exact hds
    | false =>
      exfalso
      rw [hinv hds] at hlb
      simp [ltBest] at hlb
  · rw [hc] at hc2; exact Crit.noConfusion hc2

/-- Once `did_split` is set it stays set during the search. -/
theorem evalCand_didSplit_mono {P : Type} (cfg : Cfg P) (X : List Row)
    (ys : List ℚ) (j : ℕ) (thr : ℚ) (st : SState P)
    (h : st.didSplit = true) : (evalCand cfg X ys j thr st).didSplit = true := by
  rcases evalCand_cases cfg X ys j thr st with ⟨_, heq⟩ |
    ⟨_, ⟨_, ⟨_, heq⟩ | ⟨_, heq⟩⟩ | ⟨_, ⟨_, heq⟩ | ⟨_, heq⟩⟩ | ⟨_, heq⟩⟩ <;>
    rw [heq] <;> first | rfl | exact h

/-- If some feature's candidate list contains a size-valid threshold, the
`model_agnostic` search accepts a split. -/
theorem searchFold_agnostic_complete {P : Type} (cfg : Cfg P) (X : List Row)
    (ys : List ℚ) (pl : ℚ) (j : ℕ) (thr : ℚ)
    (hc : cfg.crit = Crit.modelAgnostic)
    (hj : j < numFeat X) (hthr : thr ∈ thresholdsFor cfg X j)
    (hsz : sizesOk cfg.msl j thr X ys = true) :
    (searchFold cfg X ys pl).didSplit = true := by
  obtain ⟨r1, r2, hr⟩ := List.append_of_mem (List.mem_range.mpr hj)
  obtain ⟨t1, t2, ht⟩ := List.append_of_mem hthr
  unfold searchFold
  rw [hr, List.foldl_append, List.foldl_cons]
  set st0 := List.foldl
    (fun st j => (thresholdsFor cfg X j).foldl (fun st2 t => evalCand cfg X ys j t st2) st)
    (initState cfg pl) r1 with hst0
  have hinv0 : st0.didSplit = false → st0.lossBest = none := by
    rw [hst0]
    have := foldl_inv (fun st : SState P => st.didSplit = false → st.lossBest = none)
      (fun st j => (thresholdsFor cfg X j).foldl (fun st2 t => evalCand cfg X ys j t st2) st)
      ?_ r1 (initState cfg pl) ?_
    · exact this
    · intro st j2 hstj
      refine foldl_inv (fun st : SState P => st.didSplit = false → st.lossBest = none)
        _ ?_ _ _ hstj
      intro st2 thr2 h2
      rcases evalCand_cases cfg X ys j2 thr2 st2 with ⟨_, heq⟩ |
        ⟨_, ⟨hc2, _⟩ | ⟨hc2, ⟨hlb, heq⟩ | ⟨hlb, heq⟩⟩ | ⟨hc2, _⟩⟩
      · rw [heq]; exact h2
      · rw [hc] at hc2; exact Crit.noConfusion hc2
      · rw [heq]; exact fun hf => Bool.noConfusion hf
      · rw [heq]; exact h2
      · rw [hc] at hc2; exact Crit.noConfusion hc2
    · intro _
      simp [initState, hc]
  have hmid : ((thresholdsFor cfg X j).foldl
      (fun st2 t => evalCand cfg X ys j t st2) st0).didSplit = true := by
    rw [ht, List.foldl_append, List.foldl_cons]
    have hinv1 : (List.foldl (fun st2 t => evalCand cfg X ys j t st2) st0 t1).didSplit = false →
        (List.foldl (fun st2 t => evalCand cfg X ys j t st2) st0 t1).lossBest = none := by
      refine foldl_inv (fun st : SState P => st.didSplit = false → st.lossBest = none)
        _ ?_ _ _ hinv0
      intro st2 thr2 h2
      rcases evalCand_cases cfg X ys j thr2 st2 with ⟨_, heq⟩ |
        ⟨_, ⟨hc2, _⟩ | ⟨hc2, ⟨hlb, heq⟩ | ⟨hlb, heq⟩⟩ | ⟨hc2, _⟩⟩
      · rw [heq]; exact h2
      · rw [hc] at hc2; exact Crit.noConfusion hc2
      · rw [heq]; exact fun hf => Bool.noConfusion hf
      · rw [heq]; exact h2
      · rw [hc] at hc2; exact Crit.noConfusion hc2
    have hacc := evalCand_agnostic_forces cfg X ys j thr _ hc hsz hinv1
    exact foldl_inv (fun st : SState P => st.didSplit = true)
      _ (fun st2 t2 h2 => evalCand_didSplit_mono cfg X ys j t2 st2 h2) t2 _ hacc
  refine foldl_inv (fun st : SState P => st.didSplit = true) _ ?_ r2 _ hmid
  intro st2 j2 h2
  exact foldl_inv (fun st : SState P => st.didSplit = true)
    _ (fun st3 t3 h3 => evalCand_didSplit_mono cfg X ys j2 t3 st3 h3) _ _ h2

/-- Claim C7: under `model_agnostic`, the running best is initialised to
`+inf` and no polynomial is fitted during the threshold search; a node at an
eligible depth splits as soon as one candidate passes the
`min_samples_leaf` gate; and only after the best split is selected are the
two child surrogates fitted — exactly once each (`fits = 2` on a split and
`0` otherwise), producing the children's losses and polynomials. -/
theorem model_agnostic_spec {P : Type} (cfg : Cfg P) (X : List Row)
    (ys : List ℚ) (pl : ℚ) (depth : ℕ) (hc : cfg.crit = Crit.modelAgnostic) :
    (initState cfg pl).lossBest = none
    ∧ (∀ (j : ℕ) (thr : ℚ), j < numFeat X → thr ∈ thresholdsFor cfg X j →
        sizesOk cfg.msl j thr X ys = true → depth < cfg.maxDepth →
        (splitterF cfg X ys pl depth).didSplit = true)
    ∧ ((splitterF cfg X ys pl depth).didSplit = true →
        ∃ j thr, (splitterF cfg X ys pl depth).jFeature = some j
          ∧ (splitterF cfg X ys pl depth).threshold = some thr
          ∧ (splitterF cfg X ys pl depth).polys = some
              ((cfg.fitPoly (splitData j thr X ys).1.1 (splitData j thr X ys).1.2).2,
                (cfg.fitPoly (splitData j thr X ys).2.1 (splitData j thr X ys).2.2).2)
          ∧ (splitterF cfg X ys pl depth).loss = some (awLoss cfg X ys j thr)
          ∧ (splitterF cfg X ys pl depth).fits = 2)
    ∧ ((splitterF cfg X ys pl depth).didSplit = false →
        (splitterF cfg X ys pl depth).fits = 0) := by
  refine ⟨by simp [initState, hc], ?_, ?_, ?_⟩
  · intro j thr hj hthr hsz hd
    have hsearch := searchFold_agnostic_complete cfg X ys pl j thr hc hj hthr hsz
    have hpost : cfg.crit ≠ Crit.modelAware ∧ (searchFold cfg X ys pl).didSplit = true := by
      refine ⟨?_, hsearch⟩
      rw [hc]
      intro hcc
      exact Crit.noConfusion hcc
    simp [splitterF, hd, hc, hpost, hsearch]
  · intro hs
    by_cases hd : depth < cfg.maxDepth
    case neg =>
      exfalso
      have : (splitterF cfg X ys pl depth).didSplit = false := by
        simp [splitterF, hd, initState]
      rw [this] at hs
      exact Bool.noConfusion hs
    case pos =>
      have hds0 : (searchFold cfg X ys pl).didSplit = true := by
        by_contra hn
        have hn2 : (searchFold cfg X ys pl).didSplit = false := Bool.eq_false_iff.mpr hn
        have : (splitterF cfg X ys pl depth).didSplit = false := by
          simp [splitterF, hd, hc, hn2]
        rw [this] at hs
        exact Bool.noConfusion hs
      have hpost : cfg.crit ≠ Crit.modelAware ∧ (searchFold cfg X ys pl).didSplit = true := by
        refine ⟨?_, hds0⟩
        rw [hc]
        intro hcc
        exact Crit.noConfusion hcc
      obtain ⟨j, thr, e1, e2, _, _, _⟩ := searchFold_didSplit_spec cfg X ys pl hds0
      obtain ⟨hfits0, _⟩ := searchFold_agnostic_inv cfg X ys pl hc
      refine ⟨j, thr, ?_, ?_, ?_, ?_, ?_⟩
      · simp [splitterF, hd, hc, hpost, e1]
      · simp [splitterF, hd, hc, hpost, e2]
      · simp [splitterF, hd, hc, hpost, e1, e2, awLoss]
      · simp [splitterF, hd, hc, hpost, e1, e2, awLoss]
      · simp [splitterF, hd, hc, hpost, hfits0]
  · intro hs
    by_cases hd : depth < cfg.maxDepth
    case neg =>
      simp [splitterF, hd, initState]
    case pos =>
      have hn2 : (searchFold cfg X ys pl).didSplit = false := by
        by_contra hn
        have hn3 : (searchFold cfg X ys pl).didSplit = true := by
          cases h4 : (searchFold cfg X ys pl).didSplit with
          | true => rfl
          | false => exact absurd h4 hn
        have hpost : cfg.crit ≠ Crit.modelAware ∧ (searchFold cfg X ys pl).didSplit = true := by
          refine ⟨?_, hn3⟩
          rw [hc]
          intro hcc
          exact Crit.noConfusion hcc
        have : (splitterF cfg X ys pl depth).didSplit = true := by
          simp [splitterF, hd, hc, hpost, hn3]
        rw [this] at hs
        exact Bool.noConfusion hs
      obtain ⟨hfits0, _⟩ := searchFold_agnostic_inv cfg X ys pl hc
      simp [splitterF, hd, hc, hn2, hfits0]

unseal Rat.mul Rat.add Rat.sub Rat.inv in
/-- Witness for `model_agnostic_spec`: the two-point instance has the valid
candidate `(j, thr) = (0, 0)` and therefore splits. -/
theorem model_agnostic_spec_witness :
    (splitterF cfgAg [[0], [1]] [0, 1] 0 0).didSplit = true :=
  (model_agnostic_spec cfgAg [[0], [1]] [0, 1] 0 0 rfl).2.1 0 0
    (by decide) (by decide) (by decide) (by decide)

/-! ### Pruning below the root (claim C2) -/

unseal Rat.mul Rat.add Rat.sub Rat.inv in
/-- Claim C2, counterexample: `prune` never applies the collapse test at the
root.  On held-out data where the root's own polynomial is exact (test loss
0) and both children are bad (test loss 25 each), the claimed rule
`lower_loss + (tol/100)·test_loss > test_loss` demands collapsing the root's
children, yet pruning returns the tree with both children attached and the
root's `test_loss` never computed. -/
theorem prune_skips_root_cex :
    (pruneTree constEval 0 exPrTree [[-1], [1]] [5, 5]).toOption =
      some (PTree.node exPrRoot
        (PTree.leaf { exPrLeft with testLoss := some 25 })
        (PTree.leaf { exPrRight with testLoss := some 25 }))
    ∧ exPrRoot.testLoss = none
    ∧ lowerLossOf (PTree.leaf { exPrLeft with testLoss := some 25 })
        (PTree.leaf { exPrRight with testLoss := some 25 })
        + (0 / 100) * mseOf constEval exPrRoot.poly [[-1], [1]] [5, 5]
      > mseOf constEval exPrRoot.poly [[-1], [1]] [5, 5] := by
  decide

/-- Claim C2, amended: the top-level `prune` splits the held-out data with
the root's split fields and runs the recursive `pruner` on the two children
only — the root record itself is returned unchanged, so the root is never
tested or collapsed.  At every node below the root reached by at least one
held-out row, `test_loss` is the node polynomial's mean squared error on the
rows reaching it, and for a two-child node the children are pruned
recursively and then removed exactly when
`lower_loss + tol·test_loss > test_loss`, where `lower_loss` is the
child-`n_samples`-weighted average of the children's test losses. -/
theorem prune_collapse_below_root {P : Type} (ev : P → Row → ℚ) (tolP tol : ℚ) :
    (∀ (i : NodeInfo P) (l r : PTree P) (j : ℕ) (thr : ℚ) (X : List Row) (ys : List ℚ),
        i.jFeature = some j → i.threshold = some thr →
        pruneTree ev tolP (PTree.node i l r) X ys =
          Except.ok (PTree.node i
            (prunerF ev (tolP / 100) l (splitData j thr X ys).1.1 (splitData j thr X ys).1.2)
            (prunerF ev (tolP / 100) r (splitData j thr X ys).2.1 (splitData j thr X ys).2.2)))
    ∧ (∀ (i : NodeInfo P) (l r : PTree P) (X : List Row) (ys : List ℚ), 1 ≤ X.length →
        prunerF ev tol (PTree.node i l r) X ys =
          (if lowerLossOf
                (prunerF ev tol l (splitData (i.jFeature.getD 0) (i.threshold.getD 0) X ys).1.1
                  (splitData (i.jFeature.getD 0) (i.threshold.getD 0) X ys).1.2)
                (prunerF ev tol r (splitData (i.jFeature.getD 0) (i.threshold.getD 0) X ys).2.1
                  (splitData (i.jFeature.getD 0) (i.threshold.getD 0) X ys).2.2)
              + tol * mseOf ev i.poly X ys > mseOf ev i.poly X ys
           then PTree.leaf { i with
                  testLoss := some (mseOf ev i.poly X ys)
                  lowerLoss := some (lowerLossOf
                    (prunerF ev tol l (splitData (i.jFeature.getD 0) (i.threshold.getD 0) X ys).1.1
                      (splitData (i.jFeature.getD 0) (i.threshold.getD 0) X ys).1.2)
                    (prunerF ev tol r (splitData (i.jFeature.getD 0) (i.threshold.getD 0) X ys).2.1
                      (splitData (i.jFeature.getD 0) (i.threshold.getD 0) X ys).2.2)) }
           else PTree.node { i with
                  testLoss := some (mseOf ev i.poly X ys)
                  lowerLoss := some (lowerLossOf
                    (prunerF ev tol l (splitData (i.jFeature.getD 0) (i.threshold.getD 0) X ys).1.1
                      (splitData (i.jFeature.getD 0) (i.threshold.getD 0) X ys).1.2)
                    (prunerF ev tol r (splitData (i.jFeature.getD 0) (i.threshold.getD 0) X ys).2.1
                      (splitData (i.jFeature.getD 0) (i.threshold.getD 0) X ys).2.2)) }
                (prunerF ev tol l (splitData (i.jFeature.getD 0) (i.threshold.getD 0) X ys).1.1
                  (splitData (i.jFeature.getD 0) (i.threshold.getD 0) X ys).1.2)
                (prunerF ev tol r (splitData (i.jFeature.getD 0) (i.threshold.getD 0) X ys).2.1
                  (splitData (i.jFeature.getD 0) (i.threshold.getD 0) X ys).2.2))) := by
  constructor
  · intro i l r j thr X ys h1 h2
    simp [pruneTree, h1, h2]
  · intro i l r X ys hX
    cases X with
    | nil => simp at hX
    | cons x xs =>
      have hlen : ¬ ((x :: xs : List Row).length < 1) := by simp
      simp only [prunerF, if_neg hlen]

unseal Rat.mul Rat.add Rat.sub Rat.inv in
/-- Witness for `prune_collapse_below_root` on the concrete example tree. -/
theorem prune_collapse_below_root_witness :
    pruneTree constEval 0 (PTree.node exPrRoot (PTree.leaf exPrLeft) (PTree.leaf exPrRight))
        [[-1], [1]] [5, 5] =
      Except.ok (PTree.node exPrRoot
        (prunerF constEval (0 / 100) (PTree.leaf exPrLeft)
          (splitData 0 0 [[-1], [1]] [5, 5]).1.1 (splitData 0 0 [[-1], [1]] [5, 5]).1.2)
        (prunerF constEval (0 / 100) (PTree.leaf exPrRight)
          (splitData 0 0 [[-1], [1]] [5, 5]).2.1 (splitData 0 0 [[-1], [1]] [5, 5]).2.2)) :=
  (prune_collapse_below_root constEval 0 0).1 exPrRoot
    (PTree.leaf exPrLeft) (PTree.leaf exPrRight) 0 0 [[-1], [1]] [5, 5]
    (by decide) (by decide)

/-! ### Child creation during assembly (claim C8) -/

/-- The assembler never changes a node's `index`, `loss`, `poly` or
`n_samples`: the recursion only sets the split fields and drops the data. -/
theorem rootInfo_splitTraverse {P : Type} (cfg : Cfg P) :
    ∀ (fuel : ℕ) (i : NodeInfo P) (st : ℕ × ℕ),
      (rootInfo (splitTraverse cfg fuel i st).1).index = i.index
      ∧ (rootInfo (splitTraverse cfg fuel i st).1).loss = i.loss
      ∧ (rootInfo (splitTraverse cfg fuel i st).1).poly = i.poly
      ∧ (rootInfo (splitTraverse cfg fuel i st).1).nSamples = i.nSamples := by
  intro fuel i st
  cases fuel with
  | zero => exact ⟨rfl, rfl, rfl, rfl⟩
  | succ f =>
    cases hds : (splitterF cfg (i.data.getD ([], [])).1 (i.data.getD ([], [])).2
        i.loss i.depth).didSplit with
    | false => simp [splitTraverse, hds, rootInfo]
    | true => simp [splitTraverse, hds, rootInfo]

/-- The fit-call counter never decreases during assembly. -/
theorem splitTraverse_fits_mono {P : Type} (cfg : Cfg P) :
    ∀ (fuel : ℕ) (i : NodeInfo P) (st : ℕ × ℕ),
      st.2 ≤ (splitTraverse cfg fuel i st).2.2 := by
  intro fuel
  induction fuel with
  | zero => intro i st; exact le_refl _
  | succ f ih =>
    intro i st
    cases hds : (splitterF cfg (i.data.getD ([], [])).1 (i.data.getD ([], [])).2
        i.loss i.depth).didSplit with
    | false =>
      simp only [splitTraverse, hds]
      simp
    | true =>
      simp only [splitTraverse, hds, if_true]
      refine le_trans ?_ (ih _ _)
      refine le_trans ?_ (ih _ _)
      simp only []
      omega

unseal Rat.mul Rat.add Rat.sub Rat.inv in
/-- Claim C8, counterexample: on the two-point `model_agnostic` instance the
source build performs 5 polynomial fits (1 for the root, 2 for the winning
split's children inside the splitter, and 2 more inside `_create_node` when
the children are attached), while the claimed behaviour — children attached
with the polynomials and losses already computed by the split search, with
no refit during child creation — accounts for only 3. -/
theorem children_refit_cex :
    (fitTree cfgAg [[0], [1]] [0, 1]).2.2 = 5
    ∧ (fitTreeNoRefit cfgAg [[0], [1]] [0, 1]).2.2 = 3
    ∧ (fitTree cfgAg [[0], [1]] [0, 1]).2.2 ≠ (fitTreeNoRefit cfgAg [[0], [1]] [0, 1]).2.2 := by
  decide

/-- Claim C8, amended: when a split is accepted the assembler sets the
node's split fields, discards its raw data unless `all_data`, and attaches
two children; each child is built by `_create_node`, which performs one
fresh `_fit_poly` call (the fit counter grows by two beyond the split
search's own calls, and each child's node index reflects the extra counter
bump of its fit), after which the child's polynomial — but not its loss,
which comes from the refit — is overwritten with the one computed by the
split search. -/
theorem assembler_refits_children {P : Type} (cfg : Cfg P) (info : NodeInfo P)
    (st : ℕ × ℕ) (fuel : ℕ) (res : SplitResult P)
    (hres : res = splitterF cfg (info.data.getD ([], [])).1 (info.data.getD ([], [])).2
        info.loss info.depth)
    (hs : res.didSplit = true)
    (sp : (List Row × List ℚ) × (List Row × List ℚ)) (pq : P × P)
    (hdata : res.data = some sp) (hpolys : res.polys = some pq) :
    hasChildren (splitTraverse cfg (fuel + 1) info st).1 = true
    ∧ rootInfo (splitTraverse cfg (fuel + 1) info st).1 =
        { info with
          jFeature := res.jFeature
          threshold := res.threshold
          data := if cfg.allData then info.data else none }
    ∧ (leftChild (splitTraverse cfg (fuel + 1) info st).1).map
        (fun t => ((rootInfo t).poly, (rootInfo t).loss, (rootInfo t).nSamples,
          (rootInfo t).index))
        = some (pq.1, (cfg.fitPoly sp.1.1 sp.1.2).1, sp.1.1.length, st.1 + res.fits + 1)
    ∧ (rightChild (splitTraverse cfg (fuel + 1) info st).1).map
        (fun t => ((rootInfo t).poly, (rootInfo t).loss, (rootInfo t).nSamples,
          (rootInfo t).index))
        = some (pq.2, (cfg.fitPoly sp.2.1 sp.2.2).1, sp.2.1.length, st.1 + res.fits + 3)
    ∧ st.2 + res.fits + 2 ≤ (splitTraverse cfg (fuel + 1) info st).2.2 := by
  have hds := hs
  rw [hres] at hds
  refine ⟨?_, ?_, ?_, ?_, ?_⟩ <;>
    simp only [splitTraverse, hds, hs, if_true, ← hres, hdata, hpolys, Option.getD_some]
  · rfl
  · rfl
  · simp [leftChild, rootInfo_splitTraverse, createNode]
  · simp [rightChild, rootInfo_splitTraverse, createNode]
  · refine le_trans ?_ (splitTraverse_fits_mono cfg fuel _ _)
    refine le_trans ?_ (splitTraverse_fits_mono cfg fuel _ _)
    simp only []
    omega

unseal Rat.mul Rat.add Rat.sub Rat.inv in
/-- Witness for `assembler_refits_children` on the two-point instance. -/
theorem assembler_refits_children_witness :
    hasChildren (splitTraverse cfgAg (5 + 1)
        { index := 1, loss := 0, poly := (), nSamples := 2, jFeature := none,
          threshold := none, depth := 0, data := some ([[0], [1]], [0, 1]),
          testLoss := none, lowerLoss := none } (2, 1)).1 = true
    ∧ rootInfo (splitTraverse cfgAg (5 + 1)
        { index := 1, loss := 0, poly := (), nSamples := 2, jFeature := none,
          threshold := none, depth := 0, data := some ([[0], [1]], [0, 1]),
          testLoss := none, lowerLoss := none } (2, 1)).1 =
        { index := 1, loss := 0, poly := (), nSamples := 2,
          jFeature := (splitterF cfgAg [[0], [1]] [0, 1] 0 0).jFeature,
          threshold := (splitterF cfgAg [[0], [1]] [0, 1] 0 0).threshold,
          depth := 0, data := if cfgAg.allData then some ([[0], [1]], [0, 1]) else none,
          testLoss := none, lowerLoss := none }
    ∧ (leftChild (splitTraverse cfgAg (5 + 1)
        { index := 1, loss := 0, poly := (), nSamples := 2, jFeature := none,
          threshold := none, depth := 0, data := some ([[0], [1]], [0, 1]),
          testLoss := none, lowerLoss := none } (2, 1)).1).map
        (fun t => ((rootInfo t).poly, (rootInfo t).loss, (rootInfo t).nSamples,
          (rootInfo t).index))
        = some ((), (cfgAg.fitPoly [[0]] [0]).1, 1,
            2 + (splitterF cfgAg [[0], [1]] [0, 1] 0 0).fits + 1)
    ∧ (rightChild (splitTraverse cfgAg (5 + 1)
        { index := 1, loss := 0, poly := (), nSamples := 2, jFeature := none,
          threshold := none, depth := 0, data := some ([[0], [1]], [0, 1]),
          testLoss := none, lowerLoss := none } (2, 1)).1).map
        (fun t => ((rootInfo t).poly, (rootInfo t).loss, (rootInfo t).nSamples,
          (rootInfo t).index))
        = some ((), (cfgAg.fitPoly [[1]] [1]).1, 1,
            2 + (splitterF cfgAg [[0], [1]] [0, 1] 0 0).fits + 3)
    ∧ 1 + (splitterF cfgAg [[0], [1]] [0, 1] 0 0).fits + 2 ≤
        (splitTraverse cfgAg (5 + 1)
          { index := 1, loss := 0, poly := (), nSamples := 2, jFeature := none,
            threshold := none, depth := 0, data := some ([[0], [1]], [0, 1]),
            testLoss := none, lowerLoss := none } (2, 1)).2.2 :=
  assembler_refits_children cfgAg
    { index := 1, loss := 0, poly := (), nSamples := 2, jFeature := none,
      threshold := none, depth := 0, data := some ([[0], [1]], [0, 1]),
      testLoss := none, lowerLoss := none } (2, 1) 5
    (splitterF cfgAg [[0], [1]] [0, 1] 0 0) rfl (by decide)
    (([[0]], [0]), ([[1]], [1])) ((), ()) (by decide) (by decide)

end PolyTreeSpec
